import Mathlib

/-!
Shallow embedding of the `discrete_proj` repository core: `graph.py`
(random directed-graph generation and representation converters) and
`kan.py` (Kahn's topological sort over adjacency lists and matrices),
together with proofs of the specification's claims about them.

Python dictionaries over `0..n-1` are modelled as association lists
`List (Nat × _)` with pairwise-distinct keys, Python ints as `Int`/`Nat`,
Python floats for the density parameter as `Rat`, and the global
pseudo-random generator as an explicit stream `Nat → Nat` together with a
counter of how many draws were consumed.  Raised exceptions are modelled
with `Except Unit`, and the potentially diverging rejection-sampling loop
with explicit fuel (`Option`, `none` = not yet terminated).
-/

/-- Edge entry of an adjacency list: a bare target (unweighted) or a
(target, weight) pair (weighted), mirroring the dynamic
`isinstance(entry, tuple)` test in the source. -/
inductive Entry where
  | bare (v : ℕ) : Entry
  | pair (v : ℕ) (w : ℤ) : Entry
deriving DecidableEq, Repr

/-- Target of an adjacency-list entry: `entry[0]` for a tuple, the entry
itself otherwise (`kan.py` lines 19-22 and 32). -/
def entryTarget : Entry → ℕ
  | .bare v => v
  | .pair v _ => v

/-- Indegree table of `kahn_list`/`kahn_matrix`, modelling the Python dict
`indegree = {v: 0 for v in adj}` (resp. the list `[0]*n`) as an
association list. -/
abbrev Indeg := List (ℕ × ℤ)

/-- Decrement the stored indegree of `w` (`indegree[w] -= 1`). -/
def decr (ind : Indeg) (w : ℕ) : Indeg :=
  ind.map (fun p => if p.1 = w then (p.1, p.2 - 1) else p)

/-- Process one outgoing edge of the popped vertex: decrement the target's
indegree and enqueue the target when its indegree reaches zero
(`kan.py` lines 31-35 and 64-68). -/
def pushStep (ind : Indeg) (q : List ℕ) (w : ℕ) : Indeg × List ℕ :=
  let ind2 := decr ind w
  if List.lookup w ind2 = some 0 then (ind2, q ++ [w]) else (ind2, q)

/-- Process all outgoing edges of a popped vertex in order. -/
def processEdges (ind : Indeg) (q : List ℕ) (es : List ℕ) : Indeg × List ℕ :=
  es.foldl (fun s w => pushStep s.1 s.2 w) (ind, q)

/-- Fuel-indexed main loop of Kahn's algorithm (`while q:` in `kan.py`);
the queue is FIFO (append right, pop left).  The fuel supplied by the
callers provably dominates the number of iterations, so the fuel-exhausted
branch is never taken on their runs. -/
def kahnLoop (succ : ℕ → List ℕ) : ℕ → Indeg → List ℕ → List ℕ → List ℕ
  | 0, _, _, topo => topo
  | fuel + 1, ind, q, topo =>
    match q with
    | [] => topo
    | v :: q2 =>
      let s := processEdges ind q2 (succ v)
      kahnLoop succ fuel s.1 s.2 (topo ++ [v])

/-- Loop measure: queue length plus total remaining positive indegree.
Each iteration strictly decreases it. -/
def phi (ind : Indeg) (q : List ℕ) : ℕ :=
  q.length + (ind.map (fun p => p.2.toNat)).sum

/-- Increment the stored indegree of `v`; `none` models the KeyError the
Python `indegree[v] += 1` raises when `v` is not a key (`kan.py` 23). -/
def incr (ind : Indeg) (v : ℕ) : Option Indeg :=
  if (List.lookup v ind).isSome then
    some (ind.map (fun p => if p.1 = v then (p.1, p.2 + 1) else p))
  else none

/-- Indegree-counting phase of `kahn_list` (`kan.py` lines 15-23). -/
def indegPhase (l : List (ℕ × List ℕ)) : Option Indeg :=
  l.foldlM (fun ind p => p.2.foldlM incr ind) (l.map (fun p => (p.1, (0 : ℤ))))

/-- Adjacency lookup `adj[v]` on the target view of an adjacency list. -/
def succOf (l : List (ℕ × List ℕ)) (v : ℕ) : List ℕ :=
  (List.lookup v l).getD []

/-- Queue initialisation, main loop and final completeness check shared by
the two Kahn variants (`kan.py` lines 25-39 and 57-72). -/
def kahnRunG (ks : List ℕ) (succ : ℕ → List ℕ) (ind0 : Indeg) : Option (List ℕ) :=
  let q0 := ks.filter (fun v => decide (List.lookup v ind0 = some 0))
  let t := kahnLoop succ (phi ind0 q0) ind0 q0 []
  if t.length = ks.length then some t else none

/-- Per-entry target extraction applied to a whole adjacency list. -/
def adjTargets (adj : List (ℕ × List Entry)) : List (ℕ × List ℕ) :=
  adj.map (fun p => (p.1, p.2.map entryTarget))

/-- Kahn topological sort over an adjacency list (`kahn_list` in
`kan.py`): `Except.error` models the KeyError raised when an edge target
is not a key of the dict, `Except.ok none` the cycle signal `None`. -/
def kahn_list (adj : List (ℕ × List Entry)) : Except Unit (Option (List ℕ)) :=
  match indegPhase (adjTargets adj) with
  | none => .error ()
  | some ind0 =>
    .ok (kahnRunG ((adjTargets adj).map Prod.fst) (succOf (adjTargets adj)) ind0)

/-- Matrix entry access `mat[u][v]` with a zero default; all accesses made
by the embedded functions are guarded to be in range, matching the Python
index accesses. -/
def matEntry (mat : List (List ℤ)) (u v : ℕ) : ℤ :=
  (mat.getD u []).getD v 0

/-- Outgoing targets of `v` read off a matrix row in ascending column
order (`kan.py` lines 64-65). -/
def succM (mat : List (List ℤ)) (v : ℕ) : List ℕ :=
  (List.range mat.length).filter (fun w => decide (matEntry mat v w ≠ 0))

/-- Column indegree `sum over u of [mat[u][v] != 0]` (`kan.py` 50-55). -/
def colIndeg (mat : List (List ℤ)) (v : ℕ) : ℕ :=
  ((List.range mat.length).filter (fun u => decide (matEntry mat u v ≠ 0))).length

/-- Kahn topological sort over an adjacency matrix (`kahn_matrix` in
`kan.py`): `Except.error` models the IndexError raised during the full
column scan when some row is shorter than the number of rows,
`Except.ok none` the cycle signal `None`. -/
def kahn_matrix (mat : List (List ℤ)) : Except Unit (Option (List ℕ)) :=
  if mat.all (fun r => decide (mat.length ≤ r.length)) then
    .ok (kahnRunG (List.range mat.length) (succM mat)
      ((List.range mat.length).map (fun v => (v, (colIndeg mat v : ℤ)))))
  else .error ()

/-- Round-half-to-even on rationals, matching the Python builtin
`round` used in `graph.py` line 35 (specification-level form). -/
def pyRoundQ (q : ℚ) : ℤ :=
  if q - ⌊q⌋ < 1/2 then ⌊q⌋
  else if 1/2 < q - ⌊q⌋ then ⌊q⌋ + 1
  else if ⌊q⌋ % 2 = 0 then ⌊q⌋ else ⌊q⌋ + 1

/-- Density normalisation of `graph.py` lines 28-29: a raw density above 1
is interpreted as a percentage. -/
def normDensity (density : ℚ) : ℚ :=
  if 1 < density then density / 100 else density

/-- Edge-count target `m = int(round(density * n * (n-1)))`
(`graph.py` lines 34-35), specification-level form. -/
def mTargetQ (n : ℕ) (density : ℚ) : ℕ :=
  (pyRoundQ (normDensity density * ((n * (n - 1) : ℕ) : ℚ))).toNat

/-- Denominator of the normalised density as an exact fraction; its
numerator is `density.num` unchanged. -/
def densityDen (density : ℚ) : ℕ :=
  if 1 < density then 100 * density.den else density.den

/-- The precondition check `0 <= density <= 1` of `graph.py` line 31,
applied to the normalised density `density.num / densityDen density`. -/
def densityOk (density : ℚ) : Prop :=
  0 ≤ density.num ∧ density.num ≤ (densityDen density : ℤ)

instance (density : ℚ) : Decidable (densityOk density) := by
  unfold densityOk; infer_instance

/-- Round-half-to-even of the fraction `a / b` (`b > 0`), computed with
integer primitives so that concrete generator runs reduce inside the
kernel; proved below to agree with `pyRoundQ (a / b)`. -/
def pyRound (a : ℤ) (b : ℕ) : ℤ :=
  let f := Int.fdiv a b
  let r := a - f * b
  if 2 * r < (b : ℤ) then f
  else if (b : ℤ) < 2 * r then f + 1
  else if f % 2 = 0 then f else f + 1

/-- Edge-count target `m = int(round(density * n * (n-1)))`
(`graph.py` lines 34-35), computed on the exact fraction
`density.num / densityDen density` of the normalised density. -/
def mTarget (n : ℕ) (density : ℚ) : ℕ :=
  (pyRound (density.num * ((n * (n - 1) : ℕ) : ℤ)) (densityDen density)).toNat

/-- Rejection sampling loop of `graph.py` lines 37-46: draw
`u = randrange(n)`, `v = randrange(n)` from the stream, reject self-loops
and duplicates, stop once `m` edges are collected.  Returns the collected
edge list (insertion order) and the new stream position; `none` when the
fuel runs out before `m` edges are found. -/
def sample (g : ℕ → ℕ) (n m : ℕ) : ℕ → List (ℕ × ℕ) → ℕ → Option (List (ℕ × ℕ) × ℕ)
  | 0, edges, i => if m ≤ edges.length then some (edges, i) else none
  | fuel + 1, edges, i =>
    if m ≤ edges.length then some (edges, i)
    else
      let u := g i % n
      let v := g (i + 1) % n
      if u = v then sample g n m fuel edges (i + 2)
      else if (u, v) ∈ edges then sample g n m fuel edges (i + 2)
      else sample g n m fuel (edges ++ [(u, v)]) (i + 2)

/-- Uniform integer draw `random.randint(lo, hi)` modelled from one stream
value; the embedded generator only reaches it with `lo ≤ hi`. -/
def randint (lo hi : ℤ) (x : ℕ) : ℤ :=
  lo + (x : ℤ) % (hi - lo + 1)

/-- Append an entry to the neighbour list of key `u`
(`adj_list[u].append(...)`). -/
def appendAt (l : List (ℕ × List Entry)) (u : ℕ) (e : Entry) : List (ℕ × List Entry) :=
  l.map (fun p => if p.1 = u then (p.1, p.2 ++ [e]) else p)

/-- Write a matrix cell (`adj_matrix[u][v] = w`). -/
def setMat (mat : List (List ℤ)) (u v : ℕ) (w : ℤ) : List (List ℤ) :=
  mat.set u ((mat.getD u []).set v w)

/-- Representation-building loop of `graph.py` lines 49-59, iterating over
the collected edges (with their already-drawn weights for the weighted
case) and filling both the adjacency list `{i: [] for i in range(n)}` and
the zero matrix. -/
def buildPair (n : ℕ) (wtd : Bool) (items : List (ℕ × ℕ × ℤ)) :
    (List (ℕ × List Entry)) × List (List ℤ) :=
  items.foldl
    (fun acc it =>
      (appendAt acc.1 it.1 (if wtd then Entry.pair it.2.1 it.2.2 else Entry.bare it.2.1),
       setMat acc.2 it.1 it.2.1 it.2.2))
    ((List.range n).map (fun i => (i, ([] : List Entry))),
     List.replicate n (List.replicate n (0 : ℤ)))

/-- Result record of the generator: both representations of the graph. -/
structure GenOut where
  adjL : List (ℕ × List Entry)
  mat : List (List ℤ)
deriving DecidableEq, Repr

/-- Weight assignment of `graph.py` line 54: one `randint` draw per edge,
in edge order, starting at stream position `i`. -/
def weightItems (lo hi : ℤ) (g : ℕ → ℕ) (i : ℕ) (edges : List (ℕ × ℕ)) :
    List (ℕ × ℕ × ℤ) :=
  (List.enumFrom i edges).map (fun p => (p.2.1, p.2.2, randint lo hi (g p.1)))

/-- The generator `erdos_renyi_directed` of `graph.py` (lines 9-61) with
the global RNG made explicit as the stream `g`: normalise the density,
reject invalid densities with ValueError (`Except.error`), sample `m`
distinct non-loop edges, then build both representations; for the
weighted case a `min > max` weight range makes the first `randint` call
raise ValueError, which only happens when at least one edge exists. -/
def erdos_renyi_directed (n : ℕ) (density : ℚ) (weighted : Bool) (wr : ℤ × ℤ)
    (g : ℕ → ℕ) (fuel : ℕ) : Except Unit (Option GenOut) :=
  if densityOk density then
    match sample g n (mTarget n density) fuel [] 0 with
    | none => .ok none
    | some (edges, i) =>
      if weighted then
        if edges ≠ [] ∧ wr.2 < wr.1 then .error ()
        else
          let b := buildPair n true (weightItems wr.1 wr.2 g i edges)
          .ok (some ⟨b.1, b.2⟩)
      else
        let b := buildPair n false (edges.map (fun e => (e.1, e.2, (1 : ℤ))))
        .ok (some ⟨b.1, b.2⟩)
  else .error ()

/-- Modelled from the spec: the CPython Mersenne Twister driving
`random.seed`/`randrange`/`randint` is library code outside the repository
sources; §4.1 of the spec allows any fixed, reproducible seed-to-sequence
map to stand for it, so a simple explicit mixing function is used. -/
def mtStream (seed : ℕ) : ℕ → ℕ :=
  fun i => ((seed + 1) * 2654435761 + i * 40503) % 4294967296

/-- Seed handling of `erdos_renyi_directed` (`graph.py` lines 24-25): a
supplied seed reseeds the global generator, replacing whatever ambient
stream it had; with no seed the ambient stream is used as is. -/
def erdosSeeded (n : ℕ) (density : ℚ) (weighted : Bool) (wr : ℤ × ℤ)
    (seed : Option ℕ) (g : ℕ → ℕ) (fuel : ℕ) : Except Unit (Option GenOut) :=
  erdos_renyi_directed n density weighted wr
    (match seed with | some s => mtStream s | none => g) fuel

/-- One row of `list_to_matrix` (`graph.py` lines 65-72): the first entry
decides the weighted/unweighted branch; unpacking a bare entry as a pair
(or indexing with a pair) raises TypeError, and an out-of-range source or
target index raises IndexError, both modelled as `Except.error`. -/
def rowWrite (n : ℕ) (mat : List (List ℤ)) (u : ℕ) (es : List Entry) :
    Except Unit (List (List ℤ)) :=
  match es with
  | [] => .ok mat
  | .pair _ _ :: _ =>
    es.foldlM
      (fun acc e =>
        match e with
        | .pair v w => if u < n ∧ v < n then .ok (setMat acc u v w) else .error ()
        | .bare _ => .error ())
      mat
  | .bare _ :: _ =>
    es.foldlM
      (fun acc e =>
        match e with
        | .bare v => if u < n ∧ v < n then .ok (setMat acc u v 1) else .error ()
        | .pair _ _ => .error ())
      mat

/-- Converter `list_to_matrix` of `graph.py` lines 63-73. -/
def list_to_matrix (adjL : List (ℕ × List Entry)) (n : ℕ) :
    Except Unit (List (List ℤ)) :=
  adjL.foldlM (fun acc p => rowWrite n acc p.1 p.2)
    (List.replicate n (List.replicate n (0 : ℤ)))

/-- One row scan of `matrix_to_list` (`graph.py` lines 79-81): for each
`v` in `0..n-1`, read `mat[u][v]` (IndexError, i.e. `Except.error`, when
the row is shorter) and append `v` to the accumulated neighbour list when
the entry is nonzero. -/
def scanRow (r : List ℤ) (n : ℕ) : Except Unit (List ℕ) :=
  (List.range n).foldlM
    (fun acc v =>
      match r[v]? with
      | none => .error ()
      | some x => .ok (if x ≠ 0 then acc ++ [v] else acc))
    []

/-- Converter `matrix_to_list` of `graph.py` lines 75-82: `n = len(mat)`,
then for each `u` in `0..n-1` scan row `mat[u]` (the outer index is
always in range) and record the neighbour list of `u`. -/
def matrix_to_list (mat : List (List ℤ)) : Except Unit (List (ℕ × List ℕ)) :=
  (List.range mat.length).foldlM
    (fun acc u =>
      match scanRow (mat.getD u []) mat.length with
      | .error e => .error e
      | .ok row => .ok (acc ++ [(u, row)]))
    []

/-- Edge relation of the graph presented by key list `ks` and successor
function `succ`. -/
def EdgeRel (ks : List ℕ) (succ : ℕ → List ℕ) (u v : ℕ) : Prop :=
  u ∈ ks ∧ v ∈ succ u

/-- The graph contains a directed cycle: some nonempty edge-walk returns
to its start. -/
def HasCycle (ks : List ℕ) (succ : ℕ → List ℕ) : Prop :=
  ∃ v l, List.Chain (EdgeRel ks succ) v (l ++ [v])

/-- `T` is a topological order of the graph: it lists every vertex exactly
once and every edge goes forward in it. -/
def IsTopoOrder (ks : List ℕ) (succ : ℕ → List ℕ) (T : List ℕ) : Prop :=
  T.Nodup ∧ (∀ k, k ∈ T ↔ k ∈ ks) ∧
    ∀ u v, u ∈ ks → v ∈ succ u → T.indexOf u < T.indexOf v

/-- Edge predicate directly on an adjacency list. -/
def ListEdge (adjL : List (ℕ × List Entry)) (u v : ℕ) : Prop :=
  ∃ p ∈ adjL, p.1 = u ∧ v ∈ p.2.map entryTarget

/-- Number of edges into `k` whose source has not been popped yet. -/
def restIndegN (ks : List ℕ) (succ : ℕ → List ℕ) (topo : List ℕ) (k : ℕ) : ℕ :=
  ((ks.filter (fun u => decide (u ∉ topo))).map (fun u => (succ u).count k)).sum

/-- Indegree table holding the remaining indegrees after popping `topo`. -/
def indAt (ks : List ℕ) (succ : ℕ → List ℕ) (topo : List ℕ) : Indeg :=
  ks.map (fun k => (k, (restIndegN ks succ topo k : ℤ)))

/-! ### Basic helper lemmas -/

theorem lookup_map_self (ks : List ℕ) (f : ℕ → ℤ) (k : ℕ) :
    List.lookup k (ks.map (fun a => (a, f a))) = if k ∈ ks then some (f k) else none := by
  induction ks with
  | nil => simp [List.lookup]
  | cons a t ih =>
    simp only [List.map_cons, List.lookup, List.mem_cons]
    by_cases h : k = a
    · subst h; simp
    · have hb : (k == a) = false := beq_eq_false_iff_ne.mpr h
      simp [hb, ih, h]

theorem decr_map (ks : List ℕ) (f : ℕ → ℤ) (w : ℕ) :
    decr (ks.map (fun a => (a, f a))) w
      = ks.map (fun a => (a, if a = w then f a - 1 else f a)) := by
  simp only [decr, List.map_map]
  refine List.map_congr_left ?_
  intro a _
  by_cases h : a = w <;> simp [h]

theorem pushStep_map (ks : List ℕ) (f : ℕ → ℤ) (q : List ℕ) (w : ℕ) :
    pushStep (ks.map fun a => (a, f a)) q w
      = (ks.map fun a => (a, if a = w then f a - 1 else f a),
         if w ∈ ks ∧ f w = 1 then q ++ [w] else q) := by
  simp only [pushStep, decr_map]
  rw [lookup_map_self]
  by_cases hw : w ∈ ks
  · simp only [hw, if_pos, true_and]
    by_cases h1 : f w = 1
    · simp [h1]
    · have : ¬ (f w - 1 = 0) := by omega
      simp [h1, this]
  · simp [hw]

/-- Vertices pushed onto the queue while processing the edge list `es`,
starting from the indegree snapshot `f`. -/
def pushedList (ks : List ℕ) (f : ℕ → ℤ) : List ℕ → List ℕ
  | [] => []
  | w :: es =>
    (if w ∈ ks ∧ f w = 1 then [w] else []) ++
      pushedList ks (fun a => if a = w then f a - 1 else f a) es

theorem processEdges_map (ks : List ℕ) (es : List ℕ) :
    ∀ (f : ℕ → ℤ) (q : List ℕ),
    processEdges (ks.map fun a => (a, f a)) q es
      = (ks.map fun a => (a, f a - (es.count a : ℤ)), q ++ pushedList ks f es) := by
  induction es with
  | nil =>
    intro f q
    simp [processEdges, pushedList]
  | cons w es ih =>
    intro f q
    have hstep : processEdges (ks.map fun a => (a, f a)) q (w :: es)
        = processEdges (pushStep (ks.map fun a => (a, f a)) q w).1
            (pushStep (ks.map fun a => (a, f a)) q w).2 es := by
      simp [processEdges, List.foldl_cons]
    rw [hstep, pushStep_map]
    rw [ih (fun a => if a = w then f a - 1 else f a)]
    refine congrArg₂ Prod.mk ?_ ?_
    · refine List.map_congr_left ?_
      intro a _
      simp only [Prod.mk.injEq, true_and]
      have hc : (w :: es).count a = es.count a + if a = w then 1 else 0 := by
        by_cases h : a = w
        · subst h; simp [List.count_cons]
        · have hw : ¬ w = a := fun hw => h hw.symm
          simp [List.count_cons, h, hw]
      rw [hc]
      by_cases h : a = w <;> simp only [h, if_pos, if_neg, ite_true, ite_false] <;>
        push_cast <;> omega
    · by_cases h : w ∈ ks ∧ f w = 1 <;> simp [pushedList, h, List.append_assoc]

theorem mem_pushedList (ks : List ℕ) (es : List ℕ) :
    ∀ (f : ℕ → ℤ) (k : ℕ),
    k ∈ pushedList ks f es ↔ (k ∈ ks ∧ 1 ≤ f k ∧ f k ≤ (es.count k : ℤ)) := by
  induction es with
  | nil =>
    intro f k
    simp only [pushedList, List.not_mem_nil, List.count_nil, Nat.cast_zero, false_iff]
    rintro ⟨-, h1, h2⟩
    omega
  | cons w es ih =>
    intro f k
    have hc : (((w :: es).count k : ℕ) : ℤ) = (es.count k : ℤ) + if k = w then 1 else 0 := by
      by_cases h : k = w
      · subst h; simp [List.count_cons]
      · have hw : ¬ w = k := fun hw => h hw.symm
        simp [List.count_cons, h, hw]
    have hmem : k ∈ (if w ∈ ks ∧ f w = 1 then [w] else []) ↔ (k = w ∧ w ∈ ks ∧ f w = 1) := by
      by_cases h1 : w ∈ ks ∧ f w = 1
      · rw [if_pos h1]
        simp only [List.mem_singleton, iff_self_and]
        intro _; exact h1
      · rw [if_neg h1]
        simp only [List.not_mem_nil, false_iff]
        rintro ⟨-, h2⟩; exact h1 h2
    simp only [pushedList, List.mem_append, ih, hmem, hc]
    by_cases he : k = w
    · subst he
      simp only [eq_self_iff_true, ite_true, true_and]
      by_cases hk : k ∈ ks
      · simp only [hk, true_and]
        constructor
        · rintro (h2 | ⟨h2, h3⟩) <;> omega
        · rintro ⟨h2, h3⟩
          by_cases h4 : f k = 1
          · exact Or.inl h4
          · exact Or.inr ⟨by omega, by omega⟩
      · simp [hk]
    · simp only [he, false_and, false_or, ite_false, add_zero]

theorem nodup_pushedList (ks : List ℕ) (es : List ℕ) :
    ∀ (f : ℕ → ℤ), (pushedList ks f es).Nodup := by
  induction es with
  | nil => intro f; simp [pushedList]
  | cons w es ih =>
    intro f
    simp only [pushedList]
    by_cases h1 : w ∈ ks ∧ f w = 1
    · rw [if_pos h1]
      simp only [List.singleton_append, List.nodup_cons]
      refine ⟨?_, ih _⟩
      rw [mem_pushedList]
      rintro ⟨-, h2, -⟩
      rw [if_pos rfl] at h2
      omega
    · rw [if_neg h1]
      simp only [List.nil_append]
      exact ih _

theorem restIndegN_nil (ks : List ℕ) (succ : ℕ → List ℕ) (k : ℕ) :
    restIndegN ks succ [] k = (ks.map (fun u => (succ u).count k)).sum := by
  simp [restIndegN]

theorem restIndegN_cons (a : ℕ) (ks : List ℕ) (succ : ℕ → List ℕ) (topo : List ℕ) (k : ℕ) :
    restIndegN (a :: ks) succ topo k
      = (if a ∈ topo then 0 else (succ a).count k) + restIndegN ks succ topo k := by
  simp only [restIndegN, List.filter_cons]
  by_cases h : a ∈ topo <;> simp [h]

theorem restIndegN_congr (ks : List ℕ) (succ : ℕ → List ℕ) (topo1 topo2 : List ℕ) (k : ℕ)
    (h : ∀ u ∈ ks, (u ∈ topo1 ↔ u ∈ topo2)) :
    restIndegN ks succ topo1 k = restIndegN ks succ topo2 k := by
  unfold restIndegN
  congr 1
  congr 1
  refine List.filter_congr ?_
  intro u hu
  simp [h u hu]

theorem count_le_restIndegN (ks : List ℕ) (succ : ℕ → List ℕ) (topo : List ℕ) (v k : ℕ)
    (hv : v ∈ ks) (hnv : v ∉ topo) :
    (succ v).count k ≤ restIndegN ks succ topo k := by
  refine List.single_le_sum (fun x _ => Nat.zero_le x) _ ?_
  refine List.mem_map.mpr ⟨v, ?_, rfl⟩
  refine List.mem_filter.mpr ⟨hv, ?_⟩
  simpa using hnv

theorem restIndegN_append_le (ks : List ℕ) (succ : ℕ → List ℕ) (topo ex : List ℕ) (k : ℕ) :
    restIndegN ks succ (topo ++ ex) k ≤ restIndegN ks succ topo k := by
  unfold restIndegN
  refine List.Sublist.sum_le_sum ?_ (fun x _ => Nat.zero_le x)
  refine List.Sublist.map _ ?_
  refine List.monotone_filter_right ks ?_
  intro a ha
  simp only [decide_eq_true_eq] at ha ⊢
  intro hm
  exact ha (List.mem_append_left _ hm)

theorem restIndegN_append (ks : List ℕ) (succ : ℕ → List ℕ) (topo : List ℕ) (v : ℕ)
    (hnd : ks.Nodup) (hv : v ∈ ks) (hnv : v ∉ topo) (k : ℕ) :
    restIndegN ks succ (topo ++ [v]) k + (succ v).count k = restIndegN ks succ topo k := by
  induction ks with
  | nil => cases hv
  | cons a ks ih =>
    rw [restIndegN_cons, restIndegN_cons]
    rcases List.nodup_cons.mp hnd with ⟨hna, hnd2⟩
    by_cases hva : v = a
    · subst hva
      have h1 : v ∈ topo ++ [v] := List.mem_append_right _ (List.mem_singleton.mpr rfl)
      have h2 : restIndegN ks succ (topo ++ [v]) k = restIndegN ks succ topo k := by
        refine restIndegN_congr ks succ _ _ k ?_
        intro u hu
        have huv : u ≠ v := fun he => hna (he ▸ hu)
        simp [List.mem_append, huv]
      rw [h2, if_pos h1, if_neg hnv]
      omega
    · have hv2 : v ∈ ks := by
        rcases List.mem_cons.mp hv with h | h
        · exact absurd h hva
        · exact h
      have ha2 : (a ∈ topo ++ [v]) ↔ a ∈ topo := by
        simp only [List.mem_append, List.mem_singleton]
        constructor
        · rintro (h | h)
          · exact h
          · exact absurd h.symm hva
        · exact fun h => Or.inl h
      have := ih hnd2 hv2
      by_cases hat : a ∈ topo
      · rw [if_pos hat, if_pos (ha2.mpr hat)]
        omega
      · rw [if_neg hat, if_neg (fun h => hat (ha2.mp h))]
        omega

theorem sum_map_add (l : List ℕ) (f g : ℕ → ℕ) :
    (l.map (fun x => f x + g x)).sum = (l.map f).sum + (l.map g).sum := by
  induction l with
  | nil => simp
  | cons a l ih => simp [ih]; omega

theorem length_le_sum_count (P ks es : List ℕ) (hndP : P.Nodup) (hndks : ks.Nodup)
    (hsub : ∀ k ∈ P, k ∈ ks) (hc : ∀ k ∈ P, 1 ≤ es.count k) :
    P.length ≤ (ks.map fun k => es.count k).sum := by
  have hperm : List.Perm P (ks.filter (fun k => decide (k ∈ P))) := by
    refine (List.perm_ext_iff_of_nodup hndP (List.Nodup.filter _ hndks)).2 ?_
    intro a
    simp only [List.mem_filter, decide_eq_true_eq]
    exact ⟨fun h => ⟨hsub a h, h⟩, fun h => h.2⟩
  rw [hperm.length_eq]
  have h1 : (ks.filter (fun k => decide (k ∈ P))).length
      = ((ks.filter (fun k => decide (k ∈ P))).map (fun _ => 1)).sum := by
    simp
  rw [h1]
  have h2 : ((ks.filter (fun k => decide (k ∈ P))).map (fun _ => 1)).sum
      ≤ ((ks.filter (fun k => decide (k ∈ P))).map (fun k => es.count k)).sum := by
    refine List.sum_le_sum ?_
    intro i hi
    exact hc i (by simpa using (List.mem_filter.mp hi).2)
  refine h2.trans ?_
  refine List.Sublist.sum_le_sum ?_ (fun x _ => Nat.zero_le x)
  exact List.Sublist.map _ (List.filter_sublist ks)

theorem phi_indAt (ks : List ℕ) (succ : ℕ → List ℕ) (topo q : List ℕ) :
    phi (indAt ks succ topo) q
      = q.length + (ks.map (fun k => restIndegN ks succ topo k)).sum := by
  simp only [phi, indAt, List.map_map]
  have hfun : ((fun p => p.2.toNat) ∘ fun k => (k, (restIndegN ks succ topo k : ℤ)))
      = fun k => restIndegN ks succ topo k := by
    funext a
    simp
  rw [hfun]

/-- Loop invariant of the Kahn main loop. -/
structure KInv (ks : List ℕ) (succ : ℕ → List ℕ) (topo q : List ℕ) : Prop where
  topo_nodup : topo.Nodup
  q_nodup : q.Nodup
  topo_sub : ∀ x ∈ topo, x ∈ ks
  q_mem : ∀ k, k ∈ q ↔ (k ∈ ks ∧ k ∉ topo ∧ restIndegN ks succ topo k = 0)
  topo_zero : ∀ k ∈ topo, restIndegN ks succ topo k = 0
  prec : ∀ i, (hi : i < topo.length) → ∀ u, u ∈ ks → topo.get ⟨i, hi⟩ ∈ succ u →
    ∃ j, ∃ hj : j < topo.length, j < i ∧ topo.get ⟨j, hj⟩ = u

/-- Facts holding of the list returned by the Kahn main loop. -/
structure KPost (ks : List ℕ) (succ : ℕ → List ℕ) (r : List ℕ) : Prop where
  nodup : r.Nodup
  sub : ∀ x ∈ r, x ∈ ks
  rest_pos : ∀ k, k ∈ ks → k ∉ r → restIndegN ks succ r k ≠ 0
  prec : ∀ i, (hi : i < r.length) → ∀ u, u ∈ ks → r.get ⟨i, hi⟩ ∈ succ u →
    ∃ j, ∃ hj : j < r.length, j < i ∧ r.get ⟨j, hj⟩ = u

theorem kpost_final (ks : List ℕ) (succ : ℕ → List ℕ) (topo : List ℕ)
    (hinv : KInv ks succ topo []) : KPost ks succ topo := by
  refine ⟨hinv.topo_nodup, hinv.topo_sub, ?_, hinv.prec⟩
  intro k hk hkt hrest
  have := (hinv.q_mem k).mpr ⟨hk, hkt, hrest⟩
  simp at this

theorem kahn_step (ks : List ℕ) (succ : ℕ → List ℕ) (hnd : ks.Nodup)
    (topo : List ℕ) (v : ℕ) (q2 : List ℕ)
    (hinv : KInv ks succ topo (v :: q2)) :
    processEdges (indAt ks succ topo) q2 (succ v)
        = (indAt ks succ (topo ++ [v]),
           q2 ++ pushedList ks (fun k => (restIndegN ks succ topo k : ℤ)) (succ v))
    ∧ KInv ks succ (topo ++ [v])
        (q2 ++ pushedList ks (fun k => (restIndegN ks succ topo k : ℤ)) (succ v))
    ∧ phi (indAt ks succ (topo ++ [v]))
        (q2 ++ pushedList ks (fun k => (restIndegN ks succ topo k : ℤ)) (succ v)) + 1
        ≤ phi (indAt ks succ topo) (v :: q2) := by
  obtain ⟨hv_ks, hv_nt, hv_rest⟩ := (hinv.q_mem v).mp (List.mem_cons_self v q2)
  have hres : ∀ k, restIndegN ks succ (topo ++ [v]) k + (succ v).count k
      = restIndegN ks succ topo k := restIndegN_append ks succ topo v hnd hv_ks hv_nt
  have hcle : ∀ k, (succ v).count k ≤ restIndegN ks succ topo k :=
    fun k => count_le_restIndegN ks succ topo v k hv_ks hv_nt
  have hpush_mem : ∀ k, k ∈ pushedList ks (fun k => (restIndegN ks succ topo k : ℤ)) (succ v)
      ↔ (k ∈ ks ∧ 1 ≤ restIndegN ks succ topo k
          ∧ restIndegN ks succ topo k ≤ (succ v).count k) := by
    intro k
    rw [mem_pushedList]
    constructor
    · rintro ⟨h1, h2, h3⟩
      exact ⟨h1, by exact_mod_cast h2, by exact_mod_cast h3⟩
    · rintro ⟨h1, h2, h3⟩
      exact ⟨h1, by exact_mod_cast h2, by exact_mod_cast h3⟩
  have hq2_mem : ∀ k ∈ q2, k ∈ ks ∧ k ∉ topo ∧ restIndegN ks succ topo k = 0 :=
    fun k hk => (hinv.q_mem k).mp (List.mem_cons_of_mem v hk)
  have hvq2 : v ∉ q2 := (List.nodup_cons.mp hinv.q_nodup).1
  have hq2_nodup : q2.Nodup := (List.nodup_cons.mp hinv.q_nodup).2
  have hpe : processEdges (indAt ks succ topo) q2 (succ v)
      = (indAt ks succ (topo ++ [v]),
         q2 ++ pushedList ks (fun k => (restIndegN ks succ topo k : ℤ)) (succ v)) := by
    rw [show indAt ks succ topo
        = ks.map (fun a => (a, ((fun k => (restIndegN ks succ topo k : ℤ)) a))) from rfl]
    rw [processEdges_map]
    refine congrArg₂ Prod.mk ?_ rfl
    refine List.map_congr_left ?_
    intro a _
    have h1 := hres a
    have h2 := hcle a
    simp only [Prod.mk.injEq, true_and]
    omega
  refine ⟨hpe, ?_, ?_⟩
  · refine ⟨?_, ?_, ?_, ?_, ?_, ?_⟩
    · refine List.nodup_append.mpr ⟨hinv.topo_nodup, List.nodup_singleton v, ?_⟩
      intro a ha hav
      rw [List.mem_singleton] at hav
      exact hv_nt (hav ▸ ha)
    · refine List.nodup_append.mpr ⟨hq2_nodup, nodup_pushedList ks (succ v) _, ?_⟩
      intro a ha hap
      have h1 := (hq2_mem a ha).2.2
      have h2 := (hpush_mem a).mp hap
      omega
    · intro x hx
      rcases List.mem_append.mp hx with h | h
      · exact hinv.topo_sub x h
      · rw [List.mem_singleton] at h
        exact h ▸ hv_ks
    · intro k
      constructor
      · intro hk
        rcases List.mem_append.mp hk with hk2 | hkp
        · obtain ⟨h1, h2, h3⟩ := hq2_mem k hk2
          have h4 : (succ v).count k = 0 := by
            have := hcle k; omega
          refine ⟨h1, ?_, ?_⟩
          · intro hm
            rcases List.mem_append.mp hm with hm | hm
            · exact h2 hm
            · rw [List.mem_singleton] at hm
              exact hvq2 (hm ▸ hk2)
          · have := hres k; omega
        · obtain ⟨h1, h2, h3⟩ := (hpush_mem k).mp hkp
          refine ⟨h1, ?_, ?_⟩
          · intro hm
            rcases List.mem_append.mp hm with hm | hm
            · have := hinv.topo_zero k hm; omega
            · rw [List.mem_singleton] at hm
              subst hm
              omega
          · have := hres k; omega
      · rintro ⟨h1, h2, h3⟩
        have hkv : k ≠ v := by
          intro he
          exact h2 (he ▸ List.mem_append_right _ (List.mem_singleton.mpr rfl))
        have hkt : k ∉ topo := fun hm => h2 (List.mem_append_left _ hm)
        have h4 := hres k
        by_cases h5 : restIndegN ks succ topo k = 0
        · have hkq : k ∈ v :: q2 := (hinv.q_mem k).mpr ⟨h1, hkt, h5⟩
          rcases List.mem_cons.mp hkq with he | hk2
          · exact absurd he hkv
          · exact List.mem_append_left _ hk2
        · refine List.mem_append_right _ ((hpush_mem k).mpr ⟨h1, by omega, by omega⟩)
    · intro k hk
      rcases List.mem_append.mp hk with hm | hm
      · have h1 := hinv.topo_zero k hm
        have h2 := restIndegN_append_le ks succ topo [v] k
        omega
      · rw [List.mem_singleton] at hm
        subst hm
        have h6 := hres k
        omega
    · intro i hi u hu hsucc
      have hlen : (topo ++ [v]).length = topo.length + 1 := by simp
      by_cases hilt : i < topo.length
      · rw [List.get_append i hilt] at hsucc
        obtain ⟨j, hj, hji, hjget⟩ := hinv.prec i hilt u hu hsucc
        refine ⟨j, by omega, hji, ?_⟩
        rw [List.get_append j hj]
        exact hjget
      · have hieq : i = topo.length := by omega
        subst hieq
        have hget : (topo ++ [v]).get ⟨topo.length, hi⟩ = v := by simp
        rw [hget] at hsucc
        have hut : u ∈ topo := by
          by_contra hut2
          have ha1 := count_le_restIndegN ks succ topo u v hu hut2
          have ha2 : 0 < (succ u).count v := List.count_pos_iff_mem.mpr hsucc
          omega
        obtain ⟨⟨j, hj⟩, hjget⟩ := List.mem_iff_get.mp hut
        refine ⟨j, by omega, by omega, ?_⟩
        rw [List.get_append j hj]
        exact hjget
  · rw [phi_indAt, phi_indAt]
    have hsum : (ks.map (fun k => restIndegN ks succ topo k)).sum
        = (ks.map (fun k => restIndegN ks succ (topo ++ [v]) k)).sum
          + (ks.map (fun k => (succ v).count k)).sum := by
      rw [← sum_map_add]
      refine congrArg List.sum ?_
      refine List.map_congr_left ?_
      intro a _
      exact (hres a).symm
    have hlen : (pushedList ks (fun k => (restIndegN ks succ topo k : ℤ)) (succ v)).length
        ≤ (ks.map (fun k => (succ v).count k)).sum := by
      refine length_le_sum_count _ ks (succ v) (nodup_pushedList ks (succ v) _) hnd ?_ ?_
      · intro k hk
        exact ((hpush_mem k).mp hk).1
      · intro k hk
        have := (hpush_mem k).mp hk
        omega
    rw [List.length_append, List.length_cons]
    omega

theorem kahnLoop_post (ks : List ℕ) (succ : ℕ → List ℕ) (hnd : ks.Nodup) :
    ∀ fuel topo q, KInv ks succ topo q →
      phi (indAt ks succ topo) q ≤ fuel →
      KPost ks succ (kahnLoop succ fuel (indAt ks succ topo) q topo) := by
  intro fuel
  induction fuel with
  | zero =>
    intro topo q hinv hphi
    have hq : q = [] := by
      rw [phi_indAt] at hphi
      exact List.length_eq_zero.mp (by omega)
    subst hq
    exact kpost_final ks succ topo hinv
  | succ fuel ih =>
    intro topo q hinv hphi
    cases q with
    | nil => exact kpost_final ks succ topo hinv
    | cons v q2 =>
      obtain ⟨hpe, hinv2, hphi2⟩ := kahn_step ks succ hnd topo v q2 hinv
      have hunfold : kahnLoop succ (fuel + 1) (indAt ks succ topo) (v :: q2) topo
          = kahnLoop succ fuel (processEdges (indAt ks succ topo) q2 (succ v)).1
              (processEdges (indAt ks succ topo) q2 (succ v)).2 (topo ++ [v]) := rfl
      rw [hunfold, hpe]
      exact ih (topo ++ [v])
        (q2 ++ pushedList ks (fun k => (restIndegN ks succ topo k : ℤ)) (succ v))
        hinv2 (by omega)

/-- Backward iterate chain used to exhibit a cycle. -/
def iterChain (g : ℕ → ℕ) (x : ℕ) : ℕ → List ℕ
  | 0 => []
  | m + 1 => g^[m] x :: iterChain g x m

theorem iterChain_chain (g : ℕ → ℕ) (x : ℕ) (R : ℕ → ℕ → Prop)
    (hstep : ∀ i, R (g (g^[i] x)) (g^[i] x)) :
    ∀ m, List.Chain R (g^[m] x) (iterChain g x m) := by
  intro m
  induction m with
  | zero => exact List.Chain.nil
  | succ m ih =>
    rw [iterChain]
    refine List.Chain.cons ?_ ih
    rw [Function.iterate_succ_apply']
    exact hstep m

theorem iterChain_concat (g : ℕ → ℕ) (x : ℕ) :
    ∀ m, 1 ≤ m → ∃ l, iterChain g x m = l ++ [x] := by
  intro m
  induction m with
  | zero => intro h; omega
  | succ m ih =>
    intro _
    by_cases hm : 1 ≤ m
    · obtain ⟨l, hl⟩ := ih hm
      refine ⟨g^[m] x :: l, ?_⟩
      rw [iterChain, hl]
      rfl
    · have hm0 : m = 0 := by omega
      subst hm0
      exact ⟨[], rfl⟩

theorem exists_cycle_of_pred (S : List ℕ) (R : ℕ → ℕ → Prop) (hne : S ≠ [])
    (hpred : ∀ k ∈ S, ∃ u, u ∈ S ∧ R u k) :
    ∃ v l, List.Chain R v (l ++ [v]) := by
  classical
  have hg : ∀ k, ∃ u, k ∈ S → (u ∈ S ∧ R u k) := by
    intro k
    by_cases hk : k ∈ S
    · obtain ⟨u, hu⟩ := hpred k hk
      exact ⟨u, fun _ => hu⟩
    · exact ⟨0, fun h => absurd h hk⟩
  choose g hgspec using hg
  obtain ⟨v0, hv0⟩ : ∃ v0, v0 ∈ S := by
    cases S with
    | nil => exact absurd rfl hne
    | cons a t => exact ⟨a, List.mem_cons_self a t⟩
  have hiter : ∀ i, g^[i] v0 ∈ S := by
    intro i
    induction i with
    | zero => exact hv0
    | succ i ih =>
      rw [Function.iterate_succ_apply']
      exact (hgspec _ ih).1
  have hcard : S.toFinset.card < (Finset.range (S.toFinset.card + 1)).card := by
    rw [Finset.card_range]
    omega
  have hmaps : ∀ i ∈ Finset.range (S.toFinset.card + 1), g^[i] v0 ∈ S.toFinset := by
    intro i _
    rw [List.mem_toFinset]
    exact hiter i
  obtain ⟨i, hi, j, hj, hij, hfij⟩ :=
    Finset.exists_ne_map_eq_of_card_lt_of_maps_to hcard hmaps
  have key : ∀ i j : ℕ, i < j → g^[i] v0 = g^[j] v0 → ∃ v l, List.Chain R v (l ++ [v]) := by
    intro i j hlt heq
    have hm : g^[j - i] (g^[i] v0) = g^[i] v0 := by
      rw [← Function.iterate_add_apply]
      rw [show j - i + i = j from by omega]
      exact heq.symm
    have hstep : ∀ t, R (g (g^[t] (g^[i] v0))) (g^[t] (g^[i] v0)) := by
      intro t
      have hmem : g^[t] (g^[i] v0) ∈ S := by
        rw [← Function.iterate_add_apply]
        exact hiter (t + i)
      exact (hgspec _ hmem).2
    have hchain := iterChain_chain g (g^[i] v0) R hstep (j - i)
    obtain ⟨l, hl⟩ := iterChain_concat g (g^[i] v0) (j - i) (by omega)
    rw [hl] at hchain
    rw [hm] at hchain
    exact ⟨g^[i] v0, l, hchain⟩
  rcases Nat.lt_or_ge i j with hlt | hge
  · exact key i j hlt hfij
  · have hji : j < i := by omega
    exact key j i hji hfij.symm

theorem chain_index_lt (T : List ℕ) (R : ℕ → ℕ → Prop)
    (hR : ∀ a b, R a b → T.indexOf a < T.indexOf b) :
    ∀ (l : List ℕ) (a : ℕ) (hne : l ≠ []), List.Chain R a l →
      T.indexOf a < T.indexOf (l.getLast hne) := by
  intro l
  induction l with
  | nil => intro a hne; exact absurd rfl hne
  | cons b l ih =>
    intro a hne hchain
    rcases List.chain_cons.mp hchain with ⟨hab, hchain2⟩
    cases l with
    | nil => simpa using hR a b hab
    | cons c l2 =>
      have h2 := ih b (by simp) hchain2
      have h1 := hR a b hab
      rw [List.getLast_cons (by simp : c :: l2 ≠ [])]
      omega

theorem not_hasCycle_of_topo (ks : List ℕ) (succ : ℕ → List ℕ) (T : List ℕ)
    (hT : IsTopoOrder ks succ T) : ¬ HasCycle ks succ := by
  rintro ⟨v, l, hchain⟩
  have hR : ∀ a b, EdgeRel ks succ a b → T.indexOf a < T.indexOf b := by
    rintro a b ⟨ha, hb⟩
    exact hT.2.2 a b ha hb
  have h1 := chain_index_lt T (EdgeRel ks succ) hR (l ++ [v]) v (by simp) hchain
  rw [List.getLast_append_singleton] at h1
  omega

theorem kahnRunG_init (ks : List ℕ) (succ : ℕ → List ℕ) (hnd : ks.Nodup) :
    ∃ r, (kahnRunG ks succ (indAt ks succ [])
        = if r.length = ks.length then some r else none) ∧ KPost ks succ r := by
  have hq0 : ks.filter (fun v => decide (List.lookup v (indAt ks succ []) = some 0))
      = ks.filter (fun v => decide (restIndegN ks succ [] v = 0)) := by
    refine List.filter_congr ?_
    intro v hv
    rw [show indAt ks succ []
        = ks.map (fun a => (a, ((fun k => (restIndegN ks succ [] k : ℤ)) a))) from rfl]
    rw [lookup_map_self, if_pos hv]
    simp only [decide_eq_decide, Option.some.injEq]
    exact_mod_cast Iff.rfl
  have hinv : KInv ks succ [] (ks.filter (fun v => decide (restIndegN ks succ [] v = 0))) := by
    refine ⟨List.nodup_nil, List.Nodup.filter _ hnd, by simp, ?_, by simp, ?_⟩
    · intro k
      simp [List.mem_filter]
    · intro i hi
      simp at hi
  refine ⟨_, rfl, ?_⟩
  rw [hq0]
  exact kahnLoop_post ks succ hnd _ [] _ hinv (le_refl _)

theorem isTopoOrder_of_kpost (ks : List ℕ) (succ : ℕ → List ℕ) (r : List ℕ)
    (hnd : ks.Nodup) (hwf : ∀ u ∈ ks, ∀ v ∈ succ u, v ∈ ks)
    (hp : KPost ks succ r) (hlen : r.length = ks.length) :
    IsTopoOrder ks succ r := by
  have hperm : List.Perm r ks :=
    (hp.nodup.subperm hp.sub).perm_of_length_le (le_of_eq hlen.symm)
  refine ⟨hp.nodup, fun k => hperm.mem_iff, ?_⟩
  intro u v hu hv
  have hvT : v ∈ r := hperm.mem_iff.mpr (hwf u hu v hv)
  have hlt : r.indexOf v < r.length := List.indexOf_lt_length.mpr hvT
  have hgetv : r.get ⟨r.indexOf v, hlt⟩ = v := List.indexOf_get hlt
  obtain ⟨j, hj, hji, hjget⟩ := hp.prec (r.indexOf v) hlt u hu (by rw [hgetv]; exact hv)
  have h2 : r.indexOf (r.get ⟨j, hj⟩) = j := by
    rw [List.get_eq_getElem]
    exact List.indexOf_getElem hp.nodup j hj
  rw [hjget] at h2
  omega

theorem hasCycle_of_incomplete (ks : List ℕ) (succ : ℕ → List ℕ) (r : List ℕ)
    (hnd : ks.Nodup) (hp : KPost ks succ r) (hlen : r.length ≠ ks.length) :
    HasCycle ks succ := by
  have hle : r.length ≤ ks.length := (hp.nodup.subperm hp.sub).length_le
  have hex : ∃ k, k ∈ ks ∧ k ∉ r := by
    by_contra hall
    push_neg at hall
    have hsub : ks ⊆ r := fun k hk => hall k hk
    have := (hnd.subperm hsub).length_le
    omega
  have hSne : ks.filter (fun k => decide (k ∉ r)) ≠ [] := by
    obtain ⟨k, hk1, hk2⟩ := hex
    intro hnil
    have hmem : k ∈ ks.filter (fun k => decide (k ∉ r)) :=
      List.mem_filter.mpr ⟨hk1, by simpa using hk2⟩
    rw [hnil] at hmem
    exact List.not_mem_nil k hmem
  have hpred : ∀ k ∈ ks.filter (fun k => decide (k ∉ r)),
      ∃ u, u ∈ ks.filter (fun k => decide (k ∉ r)) ∧ EdgeRel ks succ u k := by
    intro k hk
    obtain ⟨hk1, hk2⟩ := List.mem_filter.mp hk
    have hk3 : k ∉ r := by simpa using hk2
    have hrest := hp.rest_pos k hk1 hk3
    have hexu : ∃ x ∈ (ks.filter (fun u => decide (u ∉ r))).map
        (fun u => (succ u).count k), x ≠ 0 := by
      by_contra hz
      push_neg at hz
      exact hrest (List.sum_eq_zero_iff.mpr hz)
    obtain ⟨x, hx1, hx2⟩ := hexu
    obtain ⟨u, hu1, hu2⟩ := List.mem_map.mp hx1
    refine ⟨u, hu1, (List.mem_filter.mp hu1).1, ?_⟩
    have hcpos : 0 < (succ u).count k := by omega
    exact List.count_pos_iff.mp hcpos
  obtain ⟨v, l, hchain⟩ :=
    exists_cycle_of_pred (ks.filter (fun k => decide (k ∉ r))) (EdgeRel ks succ) hSne hpred
  exact ⟨v, l, hchain⟩

theorem kahnRunG_spec (ks : List ℕ) (succ : ℕ → List ℕ)
    (hnd : ks.Nodup) (hwf : ∀ u ∈ ks, ∀ v ∈ succ u, v ∈ ks) :
    (∀ T, kahnRunG ks succ (indAt ks succ []) = some T → IsTopoOrder ks succ T)
    ∧ (kahnRunG ks succ (indAt ks succ []) = none ↔ HasCycle ks succ) := by
  obtain ⟨r, heq, hp⟩ := kahnRunG_init ks succ hnd
  by_cases hlen : r.length = ks.length
  · rw [if_pos hlen] at heq
    constructor
    · intro T hT
      rw [heq] at hT
      obtain rfl := Option.some.inj hT
      exact isTopoOrder_of_kpost ks succ _ hnd hwf hp hlen
    · constructor
      · intro h
        rw [heq] at h
        cases h
      · intro hcyc
        exact absurd hcyc
          (not_hasCycle_of_topo ks succ r (isTopoOrder_of_kpost ks succ r hnd hwf hp hlen))
  · rw [if_neg hlen] at heq
    constructor
    · intro T hT
      rw [heq] at hT
      cases hT
    · exact ⟨fun _ => hasCycle_of_incomplete ks succ r hnd hp hlen, fun _ => heq⟩

theorem hasCycle_iff_no_order (ks : List ℕ) (succ : ℕ → List ℕ)
    (hnd : ks.Nodup) (hwf : ∀ u ∈ ks, ∀ v ∈ succ u, v ∈ ks) :
    HasCycle ks succ ↔ ¬ ∃ T, IsTopoOrder ks succ T := by
  constructor
  · rintro hcyc ⟨T, hT⟩
    exact not_hasCycle_of_topo ks succ T hT hcyc
  · intro hno
    by_contra hnc
    obtain ⟨hsome, hnone⟩ := kahnRunG_spec ks succ hnd hwf
    cases hres : kahnRunG ks succ (indAt ks succ []) with
    | none => exact hnc (hnone.mp hres)
    | some T => exact hno ⟨T, hsome T hres⟩

/-! ### Bridging the two entry points to the shared run -/

theorem bind_some_eq {α β : Type} (x : α) (f : α → Option β) : (some x >>= f) = f x := rfl

theorem bind_none_eq {α β : Type} (f : α → Option β) : ((none : Option α) >>= f) = none := rfl

theorem foldlM_incr (ks : List ℕ) (ts : List ℕ) :
    ∀ f : ℕ → ℤ,
    List.foldlM incr (ks.map fun a => (a, f a)) ts
      = if ∀ t ∈ ts, t ∈ ks then some (ks.map fun a => (a, f a + (ts.count a : ℤ)))
        else none := by
  induction ts with
  | nil =>
    intro f
    simp only [List.foldlM_nil, List.not_mem_nil, false_implies, implies_true, if_pos]
    refine congrArg some ?_
    refine List.map_congr_left ?_
    intro a _
    simp
  | cons t ts ih =>
    intro f
    rw [List.foldlM_cons]
    by_cases ht : t ∈ ks
    · have hincr : incr (ks.map fun a => (a, f a)) t
          = some (ks.map fun a => (a, if a = t then f a + 1 else f a)) := by
        unfold incr
        rw [lookup_map_self, if_pos ht]
        simp only [Option.isSome_some, if_pos]
        refine congrArg some ?_
        simp only [List.map_map]
        refine List.map_congr_left ?_
        intro a _
        by_cases h : a = t <;> simp [h]
      rw [hincr, bind_some_eq]
      rw [ih (fun a => if a = t then f a + 1 else f a)]
      by_cases hall : ∀ x ∈ ts, x ∈ ks
      · rw [if_pos hall, if_pos (by
          intro x hx
          rcases List.mem_cons.mp hx with h | h
          · exact h ▸ ht
          · exact hall x h)]
        refine congrArg some ?_
        refine List.map_congr_left ?_
        intro a _
        have hc : (t :: ts).count a = ts.count a + if a = t then 1 else 0 := by
          by_cases h : a = t
          · subst h; simp [List.count_cons]
          · have hw : ¬ t = a := fun hw => h hw.symm
            simp [List.count_cons, h, hw]
        rw [hc]
        by_cases h : a = t <;> simp [h] <;> push_cast <;> ring
      · rw [if_neg hall, if_neg (by
          intro hcon
          exact hall (fun x hx => hcon x (List.mem_cons_of_mem t hx)))]
    · have hincr : incr (ks.map fun a => (a, f a)) t = none := by
        unfold incr
        rw [lookup_map_self, if_neg ht]
        simp
      rw [hincr, bind_none_eq]
      rw [if_neg (by
        intro hcon
        exact ht (hcon t (List.mem_cons_self t ts)))]

/-- Total number of occurrences of `a` as a target over all rows. -/
def totalCount (l : List (ℕ × List ℕ)) (a : ℕ) : ℕ :=
  (l.map (fun p => p.2.count a)).sum

theorem indegPhase_char (l : List (ℕ × List ℕ)) :
    indegPhase l
      = if ∀ p ∈ l, ∀ t ∈ p.2, t ∈ l.map Prod.fst then
          some ((l.map Prod.fst).map fun a => (a, (totalCount l a : ℤ)))
        else none := by
  have hinit : l.map (fun p => (p.1, (0 : ℤ)))
      = (l.map Prod.fst).map (fun a => (a, ((fun _ => (0 : ℤ)) a))) := by
    rw [List.map_map]
    rfl
  have hgen : ∀ (rows : List (ℕ × List ℕ)) (f : ℕ → ℤ),
      rows.foldlM (fun ind p => p.2.foldlM incr ind)
          ((l.map Prod.fst).map fun a => (a, f a))
        = if ∀ p ∈ rows, ∀ t ∈ p.2, t ∈ l.map Prod.fst then
            some ((l.map Prod.fst).map fun a =>
              (a, f a + ((rows.map (fun p => p.2.count a)).sum : ℤ)))
          else none := by
    intro rows
    induction rows with
    | nil =>
      intro f
      simp only [List.foldlM_nil, List.not_mem_nil, false_implies, implies_true, if_pos]
      refine congrArg some ?_
      refine List.map_congr_left ?_
      intro a _
      simp
    | cons p rows ih =>
      intro f
      rw [List.foldlM_cons, foldlM_incr]
      by_cases hp : ∀ t ∈ p.2, t ∈ l.map Prod.fst
      · rw [if_pos hp, bind_some_eq]
        rw [ih (fun a => f a + (p.2.count a : ℤ))]
        by_cases hall : ∀ q ∈ rows, ∀ t ∈ q.2, t ∈ l.map Prod.fst
        · rw [if_pos hall, if_pos (by
            intro q hq
            rcases List.mem_cons.mp hq with h | h
            · exact h ▸ hp
            · exact hall q h)]
          refine congrArg some ?_
          refine List.map_congr_left ?_
          intro a _
          simp only [Prod.mk.injEq, true_and, List.map_cons, List.sum_cons]
          push_cast
          ring
        · rw [if_neg hall, if_neg (by
            intro hcon
            exact hall (fun q hq => hcon q (List.mem_cons_of_mem p hq)))]
      · rw [if_neg hp, bind_none_eq]
        rw [if_neg (by
          intro hcon
          exact hp (hcon p (List.mem_cons_self p rows)))]
  unfold indegPhase
  rw [hinit, hgen l (fun _ => (0 : ℤ))]
  by_cases hall : ∀ p ∈ l, ∀ t ∈ p.2, t ∈ l.map Prod.fst
  · rw [if_pos hall, if_pos hall]
    refine congrArg some ?_
    refine List.map_congr_left ?_
    intro a _
    simp only [Prod.mk.injEq, true_and, totalCount, zero_add, Nat.cast_list_sum,
      List.map_map]
    try rfl
  · rw [if_neg hall, if_neg hall]

theorem lookup_self_of_nodup (l : List (ℕ × List ℕ)) :
    (l.map Prod.fst).Nodup → ∀ p ∈ l, List.lookup p.1 l = some p.2 := by
  induction l with
  | nil =>
    intro _ p hp
    cases hp
  | cons a l ih =>
    intro hnd p hp
    have hndc : (a.1 :: l.map Prod.fst).Nodup := by
      rw [List.map_cons] at hnd
      exact hnd
    have hnd2 := List.nodup_cons.mp hndc
    rcases List.mem_cons.mp hp with h | h
    · subst h
      simp [List.lookup]
    · have hne : (p.1 == a.1) = false := by
        refine beq_eq_false_iff_ne.mpr ?_
        intro he
        exact hnd2.1 (he ▸ List.mem_map.mpr ⟨p, h, rfl⟩)
      have hcomm : (a.1 == p.1) = false := by
        refine beq_eq_false_iff_ne.mpr ?_
        intro he
        exact (beq_eq_false_iff_ne.mp hne) he.symm
      simp only [List.lookup, hne]
      exact ih hnd2.2 p h

theorem succOf_eq (l : List (ℕ × List ℕ)) (hnd : (l.map Prod.fst).Nodup) (p : ℕ × List ℕ)
    (hp : p ∈ l) : succOf l p.1 = p.2 := by
  unfold succOf
  rw [lookup_self_of_nodup l hnd p hp]
  rfl

theorem totalCount_eq_rest (l : List (ℕ × List ℕ)) (hnd : (l.map Prod.fst).Nodup) (k : ℕ) :
    totalCount l k = restIndegN (l.map Prod.fst) (succOf l) [] k := by
  rw [restIndegN_nil]
  unfold totalCount
  rw [List.map_map]
  refine congrArg List.sum ?_
  refine List.map_congr_left ?_
  intro p hp
  simp only [Function.comp_apply]
  rw [succOf_eq l hnd p hp]

theorem adjTargets_fst (adj : List (ℕ × List Entry)) :
    (adjTargets adj).map Prod.fst = adj.map Prod.fst := by
  unfold adjTargets
  rw [List.map_map]
  rfl

theorem kahn_list_eq (adj : List (ℕ × List Entry))
    (hnd : (adj.map Prod.fst).Nodup)
    (hwf : ∀ p ∈ adjTargets adj, ∀ t ∈ p.2, t ∈ (adjTargets adj).map Prod.fst) :
    kahn_list adj
      = .ok (kahnRunG ((adjTargets adj).map Prod.fst) (succOf (adjTargets adj))
          (indAt ((adjTargets adj).map Prod.fst) (succOf (adjTargets adj)) [])) := by
  have hnd2 : ((adjTargets adj).map Prod.fst).Nodup := by
    rw [adjTargets_fst]
    exact hnd
  have hsome : indegPhase (adjTargets adj)
      = some (indAt ((adjTargets adj).map Prod.fst) (succOf (adjTargets adj)) []) := by
    rw [indegPhase_char, if_pos hwf]
    refine congrArg some ?_
    unfold indAt
    refine List.map_congr_left ?_
    intro a _
    rw [totalCount_eq_rest _ hnd2 a]
  unfold kahn_list
  rw [hsome]

theorem kahn_list_error_iff (adj : List (ℕ × List Entry)) :
    kahn_list adj = .error ()
      ↔ ¬ ∀ p ∈ adjTargets adj, ∀ t ∈ p.2, t ∈ (adjTargets adj).map Prod.fst := by
  unfold kahn_list
  rw [indegPhase_char]
  by_cases h : ∀ p ∈ adjTargets adj, ∀ t ∈ p.2, t ∈ (adjTargets adj).map Prod.fst
  · rw [if_pos h]
    constructor
    · intro hcon
      exact Except.noConfusion hcon
    · intro hcon
      exact absurd h hcon
  · rw [if_neg h]
    exact ⟨fun _ => h, fun _ => rfl⟩

theorem length_filter_eq_sum_ind (l : List ℕ) (p : ℕ → Bool) :
    (l.filter p).length = (l.map (fun x => if p x then 1 else 0)).sum := by
  induction l with
  | nil => rfl
  | cons a l ih =>
    rw [List.filter_cons]
    by_cases h : p a
    · simp only [h, if_pos, List.length_cons, List.map_cons, List.sum_cons, ih]
      omega
    · rw [if_neg h, ih]
      simp [h]

theorem colIndeg_eq_rest (mat : List (List ℤ)) (v : ℕ) (hv : v < mat.length) :
    colIndeg mat v = restIndegN (List.range mat.length) (succM mat) [] v := by
  rw [restIndegN_nil]
  unfold colIndeg
  rw [length_filter_eq_sum_ind]
  refine congrArg List.sum ?_
  refine List.map_congr_left ?_
  intro u hu
  unfold succM
  by_cases h : matEntry mat u v ≠ 0
  · rw [if_pos (by simpa using h)]
    have hmem : v ∈ (List.range mat.length).filter (fun w => decide (matEntry mat u w ≠ 0)) :=
      List.mem_filter.mpr ⟨List.mem_range.mpr hv, by simpa using h⟩
    exact (List.count_eq_one_of_mem (List.Nodup.filter _ (List.nodup_range _)) hmem).symm
  · rw [if_neg (by simpa using h)]
    have hnm : v ∉ (List.range mat.length).filter (fun w => decide (matEntry mat u w ≠ 0)) := by
      intro hmem
      exact h (by simpa using (List.mem_filter.mp hmem).2)
    exact (List.count_eq_zero_of_not_mem hnm).symm

theorem kahn_matrix_eq (mat : List (List ℤ))
    (hsq : ∀ r ∈ mat, mat.length ≤ r.length) :
    kahn_matrix mat
      = .ok (kahnRunG (List.range mat.length) (succM mat)
          (indAt (List.range mat.length) (succM mat) [])) := by
  unfold kahn_matrix
  rw [if_pos (by
    rw [List.all_eq_true]
    intro r hr
    simpa using hsq r hr)]
  refine congrArg Except.ok ?_
  refine congrArg (kahnRunG _ _) ?_
  unfold indAt
  refine List.map_congr_left ?_
  intro v hv
  rw [colIndeg_eq_rest mat v (List.mem_range.mp hv)]

deriving instance DecidableEq for Except

/-! ### Claim-level graph views -/

/-- Keys (vertex set) of an adjacency list. -/
def adjKeys (adj : List (ℕ × List Entry)) : List ℕ := adj.map Prod.fst

/-- Successor function read off an adjacency list. -/
def adjSucc (adj : List (ℕ × List Entry)) : ℕ → List ℕ := succOf (adjTargets adj)

/-- Well-formed adjacency list: the keys are pairwise distinct (it models
a Python dict) and every edge target is itself a key, as the docstring of
`kahn_list` requires. -/
def AdjWF (adj : List (ℕ × List Entry)) : Prop :=
  (adj.map Prod.fst).Nodup ∧ ∀ p ∈ adj, ∀ e ∈ p.2, entryTarget e ∈ adj.map Prod.fst

instance (adj : List (ℕ × List Entry)) : Decidable (AdjWF adj) := by
  unfold AdjWF
  infer_instance

theorem adjWF_targets (adj : List (ℕ × List Entry)) (h : AdjWF adj) :
    ∀ p ∈ adjTargets adj, ∀ t ∈ p.2, t ∈ (adjTargets adj).map Prod.fst := by
  intro p hp t ht
  rw [adjTargets_fst]
  obtain ⟨q, hq, rfl⟩ := List.mem_map.mp hp
  obtain ⟨e, he, rfl⟩ := List.mem_map.mp ht
  exact h.2 q hq e he

theorem adjSucc_wf (adj : List (ℕ × List Entry)) (h : AdjWF adj) :
    ∀ u ∈ adjKeys adj, ∀ v ∈ adjSucc adj u, v ∈ adjKeys adj := by
  intro u hu v hv
  obtain ⟨q, hq, hq1⟩ := List.mem_map.mp hu
  have hmem : (q.1, q.2.map entryTarget) ∈ adjTargets adj := List.mem_map.mpr ⟨q, hq, rfl⟩
  have hnd2 : ((adjTargets adj).map Prod.fst).Nodup := by
    rw [adjTargets_fst]
    exact h.1
  have hsucc : adjSucc adj u = q.2.map entryTarget := by
    unfold adjSucc
    rw [← hq1]
    exact succOf_eq (adjTargets adj) hnd2 (q.1, q.2.map entryTarget) hmem
  rw [hsucc] at hv
  obtain ⟨e, he, rfl⟩ := List.mem_map.mp hv
  exact h.2 q hq e he

theorem succM_wf (mat : List (List ℤ)) :
    ∀ u ∈ List.range mat.length, ∀ v ∈ succM mat u, v ∈ List.range mat.length :=
  fun _ _ _ hv => (List.mem_filter.mp hv).1

theorem kahn_list_run (adj : List (ℕ × List Entry)) (hadj : AdjWF adj) :
    kahn_list adj = .ok (kahnRunG (adjKeys adj) (adjSucc adj)
      (indAt (adjKeys adj) (adjSucc adj) [])) := by
  have h := kahn_list_eq adj hadj.1 (adjWF_targets adj hadj)
  rw [adjTargets_fst] at h
  exact h

theorem listEdge_iff (adj : List (ℕ × List Entry)) (hnd : (adj.map Prod.fst).Nodup)
    (u v : ℕ) :
    ListEdge adj u v ↔ (u ∈ adjKeys adj ∧ v ∈ adjSucc adj u) := by
  have hnd2 : ((adjTargets adj).map Prod.fst).Nodup := by
    rw [adjTargets_fst]
    exact hnd
  constructor
  · rintro ⟨p, hp, rfl, hv⟩
    refine ⟨List.mem_map.mpr ⟨p, hp, rfl⟩, ?_⟩
    have hmem : (p.1, p.2.map entryTarget) ∈ adjTargets adj := List.mem_map.mpr ⟨p, hp, rfl⟩
    have hs := succOf_eq (adjTargets adj) hnd2 _ hmem
    unfold adjSucc
    rw [hs]
    exact hv
  · rintro ⟨hu, hv⟩
    obtain ⟨p, hp, rfl⟩ := List.mem_map.mp hu
    have hmem : (p.1, p.2.map entryTarget) ∈ adjTargets adj := List.mem_map.mpr ⟨p, hp, rfl⟩
    have hs := succOf_eq (adjTargets adj) hnd2 _ hmem
    refine ⟨p, hp, rfl, ?_⟩
    unfold adjSucc at hv
    rw [hs] at hv
    exact hv

/-! ### Claim C1 -/

/-- C1: for every well-formed input graph, each Kahn variant satisfies the
Kahn contract: whenever the graph is acyclic it returns a sequence listing
every vertex exactly once in which, for every edge `(u, v)`, `u` precedes
`v`; it returns the cycle signal `none` exactly when the graph has a
directed cycle, equivalently exactly when no such sequence exists; and for
`n = 0` the empty order is returned. -/
theorem C1_kahn_contract
    (adj : List (ℕ × List Entry)) (mat : List (List ℤ))
    (hadj : AdjWF adj) (hsq : ∀ r ∈ mat, r.length = mat.length) :
    (∀ T, kahn_list adj = .ok (some T) → IsTopoOrder (adjKeys adj) (adjSucc adj) T)
    ∧ (¬ HasCycle (adjKeys adj) (adjSucc adj)
        → ∃ T, kahn_list adj = .ok (some T) ∧ IsTopoOrder (adjKeys adj) (adjSucc adj) T)
    ∧ (kahn_list adj = .ok none ↔ HasCycle (adjKeys adj) (adjSucc adj))
    ∧ (HasCycle (adjKeys adj) (adjSucc adj)
        ↔ ¬ ∃ T, IsTopoOrder (adjKeys adj) (adjSucc adj) T)
    ∧ (∀ T, kahn_matrix mat = .ok (some T)
        → IsTopoOrder (List.range mat.length) (succM mat) T)
    ∧ (¬ HasCycle (List.range mat.length) (succM mat)
        → ∃ T, kahn_matrix mat = .ok (some T)
            ∧ IsTopoOrder (List.range mat.length) (succM mat) T)
    ∧ (kahn_matrix mat = .ok none ↔ HasCycle (List.range mat.length) (succM mat))
    ∧ (HasCycle (List.range mat.length) (succM mat)
        ↔ ¬ ∃ T, IsTopoOrder (List.range mat.length) (succM mat) T)
    ∧ kahn_list ([] : List (ℕ × List Entry)) = .ok (some [])
    ∧ kahn_matrix ([] : List (List ℤ)) = .ok (some []) := by
  have hkl := kahn_list_run adj hadj
  have hspecL := kahnRunG_spec (adjKeys adj) (adjSucc adj) hadj.1 (adjSucc_wf adj hadj)
  have hresL : ∀ o, kahn_list adj = .ok o
      ↔ kahnRunG (adjKeys adj) (adjSucc adj) (indAt (adjKeys adj) (adjSucc adj) []) = o := by
    intro o
    rw [hkl]
    exact ⟨fun h => Except.ok.inj h, fun h => by rw [h]⟩
  have hkm := kahn_matrix_eq mat (fun r hr => le_of_eq (hsq r hr).symm)
  have hspecM := kahnRunG_spec (List.range mat.length) (succM mat)
    (List.nodup_range _) (succM_wf mat)
  have hresM : ∀ o, kahn_matrix mat = .ok o
      ↔ kahnRunG (List.range mat.length) (succM mat)
          (indAt (List.range mat.length) (succM mat) []) = o := by
    intro o
    rw [hkm]
    exact ⟨fun h => Except.ok.inj h, fun h => by rw [h]⟩
  refine ⟨?_, ?_, ?_, ?_, ?_, ?_, ?_, ?_, rfl, rfl⟩
  · intro T hT
    exact hspecL.1 T ((hresL (some T)).mp hT)
  · intro hnc
    cases hr : kahnRunG (adjKeys adj) (adjSucc adj) (indAt (adjKeys adj) (adjSucc adj) []) with
    | none => exact absurd (hspecL.2.mp hr) hnc
    | some T => exact ⟨T, (hresL (some T)).mpr hr, hspecL.1 T hr⟩
  · exact (hresL none).trans hspecL.2
  · exact hasCycle_iff_no_order (adjKeys adj) (adjSucc adj) hadj.1 (adjSucc_wf adj hadj)
  · intro T hT
    exact hspecM.1 T ((hresM (some T)).mp hT)
  · intro hnc
    cases hr : kahnRunG (List.range mat.length) (succM mat)
        (indAt (List.range mat.length) (succM mat) []) with
    | none => exact absurd (hspecM.2.mp hr) hnc
    | some T => exact ⟨T, (hresM (some T)).mpr hr, hspecM.1 T hr⟩
  · exact (hresM none).trans hspecM.2
  · exact hasCycle_iff_no_order (List.range mat.length) (succM mat)
      (List.nodup_range _) (succM_wf mat)

/-- Witness for C1: the concrete acyclic graph `0 → 1` in both
representations; the theorem is applied with its hypotheses discharged by
computation and its first conjunct is instantiated at the concrete
returned order. -/
theorem C1_kahn_contract_witness :
    IsTopoOrder (adjKeys [(0, [Entry.bare 1]), (1, [])])
      (adjSucc [(0, [Entry.bare 1]), (1, [])]) [0, 1]
    ∧ IsTopoOrder (List.range 2) (succM [[(0:ℤ),1],[0,0]]) [0, 1] := by
  have h := C1_kahn_contract [(0, [Entry.bare 1]), (1, [])] [[(0:ℤ),1],[0,0]]
    (by decide) (by decide)
  refine ⟨h.1 [0, 1] (by decide), ?_⟩
  have h2 := h.2.2.2.2.1 [0, 1] (by decide)
  simpa using h2

/-! ### Claim C6 -/

/-- C6: the topological sorters have no failure mode on graph
representations: for every well-formed adjacency list and every square
matrix, `kahn_list` and `kahn_matrix` return an ordinary result (never the
modelled exception), and a cyclic graph is reported through the sentinel
`none` returned as an ordinary result, not through an error path. -/
theorem C6_no_failure (adj : List (ℕ × List Entry)) (mat : List (List ℤ))
    (hadj : AdjWF adj) (hsq : ∀ r ∈ mat, r.length = mat.length) :
    (∃ r, kahn_list adj = .ok r)
    ∧ (∃ r, kahn_matrix mat = .ok r)
    ∧ (HasCycle (adjKeys adj) (adjSucc adj) → kahn_list adj = .ok none)
    ∧ (HasCycle (List.range mat.length) (succM mat) → kahn_matrix mat = .ok none) := by
  have hkl := kahn_list_run adj hadj
  have hkm := kahn_matrix_eq mat (fun r hr => le_of_eq (hsq r hr).symm)
  have hspecL := kahnRunG_spec (adjKeys adj) (adjSucc adj) hadj.1 (adjSucc_wf adj hadj)
  have hspecM := kahnRunG_spec (List.range mat.length) (succM mat)
    (List.nodup_range _) (succM_wf mat)
  refine ⟨⟨_, hkl⟩, ⟨_, hkm⟩, ?_, ?_⟩
  · intro hcyc
    rw [hkl]
    rw [hspecL.2.mpr hcyc]
  · intro hcyc
    rw [hkm]
    rw [hspecM.2.mpr hcyc]

/-- Witness for C6 at a concrete cyclic two-vertex graph in both
representations. -/
theorem C6_no_failure_witness :
    kahn_list [(0, [Entry.bare 1]), (1, [Entry.bare 0])] = .ok none
    ∧ kahn_matrix [[(0:ℤ),1],[1,0]] = .ok none := by
  have h := C6_no_failure [(0, [Entry.bare 1]), (1, [Entry.bare 0])] [[(0:ℤ),1],[1,0]]
    (by decide) (by decide)
  refine ⟨h.2.2.1 ?_, h.2.2.2 ?_⟩
  · exact ⟨0, [1], by
      refine List.Chain.cons ?_ (List.Chain.cons ?_ List.Chain.nil)
      · exact ⟨by decide, by decide⟩
      · exact ⟨by decide, by decide⟩⟩
  · exact ⟨0, [1], by
      refine List.Chain.cons ?_ (List.Chain.cons ?_ List.Chain.nil)
      · exact ⟨by decide, by decide⟩
      · exact ⟨by decide, by decide⟩⟩

/-! ### Claim C2 -/

/-- C2: when the same graph is presented simultaneously as an adjacency
list over `0..n-1` and as an equivalent square matrix encoding the
identical edge set, the two Kahn variants agree on the cycle-vs-acyclic
classification: one returns the cycle signal `none` iff the other does. -/
theorem C2_classification_agree
    (adj : List (ℕ × List Entry)) (mat : List (List ℤ))
    (hnd : (adj.map Prod.fst).Nodup)
    (hkeys : ∀ k, k ∈ adj.map Prod.fst ↔ k < mat.length)
    (hsq : ∀ r ∈ mat, r.length = mat.length)
    (hedge : ∀ u v, ListEdge adj u v
      ↔ (u < mat.length ∧ v < mat.length ∧ matEntry mat u v ≠ 0)) :
    (kahn_list adj = .ok none ↔ kahn_matrix mat = .ok none) := by
  have hadj : AdjWF adj := by
    refine ⟨hnd, ?_⟩
    intro p hp e he
    have hle : ListEdge adj p.1 (entryTarget e) :=
      ⟨p, hp, rfl, List.mem_map.mpr ⟨e, he, rfl⟩⟩
    have := (hedge p.1 (entryTarget e)).mp hle
    exact (hkeys (entryTarget e)).mpr this.2.1
  have hrel : ∀ u v, EdgeRel (adjKeys adj) (adjSucc adj) u v
      ↔ EdgeRel (List.range mat.length) (succM mat) u v := by
    intro u v
    have h1 : EdgeRel (adjKeys adj) (adjSucc adj) u v ↔ ListEdge adj u v :=
      (listEdge_iff adj hnd u v).symm
    rw [h1, hedge]
    unfold EdgeRel succM
    simp only [List.mem_range, List.mem_filter, decide_eq_true_eq]
    try tauto
  have hcyc : HasCycle (adjKeys adj) (adjSucc adj)
      ↔ HasCycle (List.range mat.length) (succM mat) := by
    constructor
    · rintro ⟨v, l, hchain⟩
      exact ⟨v, l, List.Chain.imp (fun a b h => (hrel a b).mp h) hchain⟩
    · rintro ⟨v, l, hchain⟩
      exact ⟨v, l, List.Chain.imp (fun a b h => (hrel a b).mpr h) hchain⟩
  have hkl := kahn_list_run adj hadj
  have hkm := kahn_matrix_eq mat (fun r hr => le_of_eq (hsq r hr).symm)
  have hspecL := kahnRunG_spec (adjKeys adj) (adjSucc adj) hadj.1 (adjSucc_wf adj hadj)
  have hspecM := kahnRunG_spec (List.range mat.length) (succM mat)
    (List.nodup_range _) (succM_wf mat)
  have hresL : kahn_list adj = .ok none
      ↔ kahnRunG (adjKeys adj) (adjSucc adj) (indAt (adjKeys adj) (adjSucc adj) []) = none := by
    rw [hkl]
    exact ⟨fun h => Except.ok.inj h, fun h => by rw [h]⟩
  have hresM : kahn_matrix mat = .ok none
      ↔ kahnRunG (List.range mat.length) (succM mat)
          (indAt (List.range mat.length) (succM mat) []) = none := by
    rw [hkm]
    exact ⟨fun h => Except.ok.inj h, fun h => by rw [h]⟩
  rw [hresL, hresM, hspecL.2, hspecM.2]
  exact hcyc

/-- Witness for C2 at a concrete cyclic graph presented in both
representations. -/
theorem C2_classification_agree_witness :
    kahn_list [(0, [Entry.bare 1]), (1, [Entry.bare 0])] = .ok none
    ↔ kahn_matrix [[(0:ℤ),1],[1,0]] = .ok none := by
  refine C2_classification_agree [(0, [Entry.bare 1]), (1, [Entry.bare 0])]
    [[(0:ℤ),1],[1,0]] (by decide) (by intro k; simp; omega) (by decide) ?_
  intro u v
  constructor
  · rintro ⟨p, hp, rfl, hv⟩
    fin_cases hp
    · simp only [entryTarget, List.map_cons, List.map_nil, List.mem_cons,
        List.not_mem_nil, or_false] at hv
      subst hv
      exact ⟨by decide, by decide, by decide⟩
    · simp only [entryTarget, List.map_cons, List.map_nil, List.mem_cons,
        List.not_mem_nil, or_false] at hv
      subst hv
      exact ⟨by decide, by decide, by decide⟩
  · rintro ⟨hu, hv, hne⟩
    simp only [List.length_cons, List.length_nil] at hu hv
    have hu2 : u = 0 ∨ u = 1 := by omega
    have hv2 : v = 0 ∨ v = 1 := by omega
    rcases hu2 with rfl | rfl <;> rcases hv2 with rfl | rfl
    · exact absurd hne (by decide)
    · exact ⟨(0, [Entry.bare 1]), by decide, rfl, by decide⟩
    · exact ⟨(1, [Entry.bare 0]), by decide, rfl, by decide⟩
    · exact absurd hne (by decide)

/-! ### Claim C10 -/

/-- Strip every entry of an adjacency list down to a bare entry with the
same target, in the same position. -/
def stripWeights (adj : List (ℕ × List Entry)) : List (ℕ × List Entry) :=
  adj.map (fun p => (p.1, p.2.map (fun e => Entry.bare (entryTarget e))))

/-- C10: `kahn_list` is insensitive to weights and tolerates mixed
edge-entry forms: on any adjacency list whose entries mix bare targets and
(target, weight) pairs, it returns exactly the same result as on the
all-bare list with the same targets in the same positions. -/
theorem C10_weight_insensitive (adj : List (ℕ × List Entry)) :
    kahn_list (stripWeights adj) = kahn_list adj := by
  have h : adjTargets (stripWeights adj) = adjTargets adj := by
    unfold adjTargets stripWeights
    rw [List.map_map]
    refine List.map_congr_left ?_
    intro p _
    simp only [Function.comp_apply, List.map_map]
    refine congrArg (Prod.mk p.1) ?_
    refine List.map_congr_left ?_
    intro e _
    cases e <;> rfl
  unfold kahn_list
  rw [h]

/-! ### Generator: rejection sampling -/

theorem sample_post (g : ℕ → ℕ) (n m : ℕ) (hnm : 0 < m → 0 < n) :
    ∀ fuel (edges : List (ℕ × ℕ)) (i : ℕ) (es : List (ℕ × ℕ)) (i2 : ℕ),
      edges.length ≤ m → edges.Nodup →
      (∀ e ∈ edges, e.1 < n ∧ e.2 < n ∧ e.1 ≠ e.2) →
      sample g n m fuel edges i = some (es, i2) →
      es.length = m ∧ es.Nodup ∧ (∀ e ∈ es, e.1 < n ∧ e.2 < n ∧ e.1 ≠ e.2) := by
  intro fuel
  induction fuel with
  | zero =>
    intro edges i es i2 hlen hnd hgood hs
    unfold sample at hs
    by_cases h : m ≤ edges.length
    · rw [if_pos h] at hs
      obtain ⟨rfl, rfl⟩ : edges = es ∧ i = i2 := by
        have := Option.some.inj hs
        exact ⟨congrArg Prod.fst this, congrArg Prod.snd this⟩
      exact ⟨by omega, hnd, hgood⟩
    · rw [if_neg h] at hs
      cases hs
  | succ fuel ih =>
    intro edges i es i2 hlen hnd hgood hs
    unfold sample at hs
    by_cases h : m ≤ edges.length
    · rw [if_pos h] at hs
      obtain ⟨rfl, rfl⟩ : edges = es ∧ i = i2 := by
        have := Option.some.inj hs
        exact ⟨congrArg Prod.fst this, congrArg Prod.snd this⟩
      exact ⟨by omega, hnd, hgood⟩
    · rw [if_neg h] at hs
      have hn : 0 < n := hnm (by omega)
      by_cases h1 : g i % n = g (i + 1) % n
      · rw [if_pos h1] at hs
        exact ih edges (i + 2) es i2 hlen hnd hgood hs
      · rw [if_neg h1] at hs
        by_cases h2 : (g i % n, g (i + 1) % n) ∈ edges
        · rw [if_pos h2] at hs
          exact ih edges (i + 2) es i2 hlen hnd hgood hs
        · rw [if_neg h2] at hs
          refine ih (edges ++ [(g i % n, g (i + 1) % n)]) (i + 2) es i2 ?_ ?_ ?_ hs
          · rw [List.length_append, List.length_singleton]
            omega
          · refine List.nodup_append.mpr ⟨hnd, List.nodup_singleton _, ?_⟩
            intro a ha hamem
            rw [List.mem_singleton] at hamem
            exact h2 (hamem ▸ ha)
          · intro e he
            rcases List.mem_append.mp he with hm | hm
            · exact hgood e hm
            · rw [List.mem_singleton] at hm
              subst hm
              exact ⟨Nat.mod_lt _ hn, Nat.mod_lt _ hn, h1⟩

theorem pyRound_zero (b : ℕ) : pyRound 0 b = 0 := by
  unfold pyRound
  rw [Int.zero_fdiv]
  simp only [zero_mul, sub_zero, mul_zero]
  by_cases h : (0 : ℤ) < b
  · rw [if_pos h]
  · rw [if_neg h, if_neg (by omega)]
    rw [if_pos (by decide)]

theorem mTarget_zero_of_le_one (n : ℕ) (density : ℚ) (hn : n ≤ 1) :
    mTarget n density = 0 := by
  unfold mTarget
  have hmm : n * (n - 1) = 0 := by
    rcases Nat.le_one_iff_eq_zero_or_eq_one.mp hn with rfl | rfl <;> rfl
  rw [hmm]
  simp only [Nat.cast_zero, mul_zero, pyRound_zero]
  rfl

theorem mTarget_pos_imp (n : ℕ) (density : ℚ) (h : 0 < mTarget n density) : 0 < n := by
  by_contra hn
  rw [mTarget_zero_of_le_one n density (by omega)] at h
  omega

theorem foldl_prod {α β γ : Type} (l : List γ) (f : α → γ → α) (h : β → γ → β) :
    ∀ (a : α) (b : β),
    l.foldl (fun acc it => (f acc.1 it, h acc.2 it)) (a, b) = (l.foldl f a, l.foldl h b) := by
  induction l with
  | nil => intro a b; rfl
  | cons x l ih =>
    intro a b
    rw [List.foldl_cons, List.foldl_cons, List.foldl_cons]
    exact ih _ _

theorem sum_indicator_range (n a : ℕ) (ha : a < n) :
    ((List.range n).map (fun u => if a = u then 1 else 0)).sum = 1 := by
  induction n with
  | zero => omega
  | succ n ih =>
    rw [List.range_succ, List.map_append, List.sum_append]
    by_cases h : a < n
    · rw [ih h]
      have hne : ¬ a = n := by omega
      simp [hne]
    · have han : a = n := by omega
      subst han
      have hz : ((List.range a).map (fun u => if a = u then 1 else 0)).sum = 0 := by
        refine List.sum_eq_zero ?_
        intro x hx
        obtain ⟨u, hu, rfl⟩ := List.mem_map.mp hx
        have : ¬ a = u := by
          intro he
          exact absurd (List.mem_range.mp hu) (by omega)
        simp [this]
      rw [hz]
      simp

theorem sum_filter_lengths (n : ℕ) (items : List (ℕ × ℕ × ℤ))
    (hsrc : ∀ it ∈ items, it.1 < n) :
    ((List.range n).map
      (fun u => ((items.filter (fun it => decide (it.1 = u))).map
        (fun it => (0 : ℕ))).length)).sum = items.length := by
  induction items with
  | nil => simp
  | cons it items ih =>
    have hlen : ∀ u, ((((it :: items).filter (fun it => decide (it.1 = u))).map
        (fun it => (0 : ℕ))).length)
        = (if it.1 = u then 1 else 0)
          + (((items.filter (fun it2 => decide (it2.1 = u))).map (fun it => (0 : ℕ))).length) := by
      intro u
      rw [List.filter_cons]
      by_cases h : it.1 = u
      · rw [if_pos (by simpa using h), if_pos h]
        simp only [List.map_cons, List.length_cons, List.length_map]
        omega
      · rw [if_neg (by simpa using h), if_neg h]
        simp
    have hrw : ((List.range n).map
        (fun u => (((it :: items).filter (fun it => decide (it.1 = u))).map
          (fun it => (0 : ℕ))).length)).sum
        = ((List.range n).map (fun u => if it.1 = u then 1 else 0)).sum
          + ((List.range n).map
            (fun u => ((items.filter (fun it2 => decide (it2.1 = u))).map
              (fun it => (0 : ℕ))).length)).sum := by
      rw [← sum_map_add]
      refine congrArg List.sum ?_
      refine List.map_congr_left ?_
      intro u _
      exact hlen u
    rw [hrw, ih (fun it2 h2 => hsrc it2 (List.mem_cons_of_mem it h2)),
      sum_indicator_range n it.1 (hsrc it (List.mem_cons_self it items))]
    simp only [List.length_cons]
    omega

theorem appendAt_foldl (n : ℕ) (ent : (ℕ × ℕ × ℤ) → Entry) (items : List (ℕ × ℕ × ℤ)) :
    ∀ f : ℕ → List Entry,
    items.foldl (fun l it => appendAt l it.1 (ent it)) ((List.range n).map (fun u => (u, f u)))
      = (List.range n).map (fun u =>
          (u, f u ++ (items.filter (fun it => decide (it.1 = u))).map ent)) := by
  induction items with
  | nil =>
    intro f
    simp only [List.foldl_nil, List.filter_nil, List.map_nil, List.append_nil]
  | cons it items ih =>
    intro f
    rw [List.foldl_cons]
    have hstep : appendAt ((List.range n).map (fun u => (u, f u))) it.1 (ent it)
        = (List.range n).map (fun u => (u, if u = it.1 then f u ++ [ent it] else f u)) := by
      unfold appendAt
      rw [List.map_map]
      refine List.map_congr_left ?_
      intro u _
      by_cases h : u = it.1 <;> simp [h]
    rw [hstep, ih]
    refine List.map_congr_left ?_
    intro u _
    refine congrArg (Prod.mk u) ?_
    rw [List.filter_cons]
    by_cases h : it.1 = u
    · rw [if_pos (h.symm : u = it.1), if_pos (show decide (it.1 = u) = true by simpa using h)]
      rw [List.map_cons, List.append_assoc]
      rfl
    · rw [if_neg (fun he : u = it.1 => h he.symm),
        if_neg (show ¬ decide (it.1 = u) = true by simpa using h)]

theorem setMat_shape (mt : List (List ℤ)) (a b : ℕ) (w : ℤ) (n : ℕ)
    (h1 : mt.length = n) (h2 : ∀ r ∈ mt, r.length = n) :
    (setMat mt a b w).length = n ∧ ∀ r ∈ setMat mt a b w, r.length = n := by
  unfold setMat
  by_cases ha : a < mt.length
  · refine ⟨by rw [List.length_set]; exact h1, ?_⟩
    intro r hr
    rcases List.mem_or_eq_of_mem_set hr with h | h
    · exact h2 r h
    · subst h
      rw [List.length_set]
      have hg : mt.getD a [] ∈ mt := by
        rw [List.getD_eq_getElem mt [] ha]
        exact List.getElem_mem ha
      exact h2 _ hg
  · have hs : mt.set a ((mt.getD a []).set b w) = mt :=
      List.set_eq_of_length_le (by omega)
    rw [hs]
    exact ⟨h1, h2⟩

theorem matEntry_setMat (mt : List (List ℤ)) (a b : ℕ) (w : ℤ) (u v : ℕ) (n : ℕ)
    (h1 : mt.length = n) (h2 : ∀ r ∈ mt, r.length = n) (hu : u < n) (hv : v < n)
    (ha : a < n) (hb : b < n) :
    matEntry (setMat mt a b w) u v = if a = u ∧ b = v then w else matEntry mt u v := by
  have hrow : ∀ (i : ℕ), i < n → (mt.getD i []).length = n := by
    intro i hi
    rw [List.getD_eq_getElem mt [] (by omega)]
    exact h2 _ (List.getElem_mem (by omega))
  unfold setMat matEntry
  by_cases hau : a = u
  · subst hau
    have hset : (mt.set a ((mt.getD a []).set b w)).getD a []
        = (mt.getD a []).set b w := by
      rw [List.getD_eq_getElem _ [] (by rw [List.length_set]; omega)]
      exact List.getElem_set_self _
    rw [hset]
    by_cases hbv : b = v
    · subst hbv
      rw [if_pos ⟨rfl, rfl⟩]
      rw [List.getD_eq_getElem _ 0 (by rw [List.length_set, hrow a (by omega)]; omega)]
      exact List.getElem_set_self _
    · rw [if_neg (by rintro ⟨-, h⟩; exact hbv h)]
      by_cases hvlen : v < (mt.getD a []).length
      · rw [List.getD_eq_getElem _ 0 (by rw [List.length_set]; omega),
          List.getD_eq_getElem _ 0 hvlen]
        exact List.getElem_set_ne hbv _
      · rw [List.getD_eq_default _ 0 (by rw [List.length_set]; omega),
          List.getD_eq_default _ 0 (by omega)]
  · have hset : (mt.set a ((mt.getD a []).set b w)).getD u [] = mt.getD u [] := by
      by_cases hul : u < mt.length
      · rw [List.getD_eq_getElem _ [] (by rw [List.length_set]; omega),
          List.getD_eq_getElem _ [] hul]
        exact List.getElem_set_ne hau _
      · rw [List.getD_eq_default _ [] (by rw [List.length_set]; omega),
          List.getD_eq_default _ [] (by omega)]
    rw [hset, if_neg (by rintro ⟨h, -⟩; exact hau h)]

theorem matEntry_oob (mt : List (List ℤ)) (n : ℕ)
    (h1 : mt.length = n) (h2 : ∀ r ∈ mt, r.length = n) (u v : ℕ)
    (h : ¬ (u < n ∧ v < n)) : matEntry mt u v = 0 := by
  unfold matEntry
  by_cases hu : u < n
  · have hv : ¬ v < n := fun hv => h ⟨hu, hv⟩
    have hrow : (mt.getD u []).length = n := by
      rw [List.getD_eq_getElem mt [] (by omega)]
      exact h2 _ (List.getElem_mem (by omega))
    rw [List.getD_eq_default _ 0 (by omega)]
  · rw [List.getD_eq_default mt [] (by omega)]
    rfl

theorem matEntry_replicate (n : ℕ) (u v : ℕ) :
    matEntry (List.replicate n (List.replicate n (0 : ℤ))) u v = 0 := by
  unfold matEntry
  by_cases hu : u < n
  · rw [List.getD_eq_getElem _ [] (by rw [List.length_replicate]; omega)]
    rw [List.getElem_replicate]
    by_cases hv : v < n
    · rw [List.getD_eq_getElem _ 0 (by rw [List.length_replicate]; omega)]
      rw [List.getElem_replicate]
    · rw [List.getD_eq_default _ 0 (by rw [List.length_replicate]; omega)]
  · rw [List.getD_eq_default _ [] (by rw [List.length_replicate]; omega)]
    rfl

theorem matFold_shape (n : ℕ) (items : List (ℕ × ℕ × ℤ)) :
    ∀ mt : List (List ℤ), mt.length = n → (∀ r ∈ mt, r.length = n) →
    (items.foldl (fun mt it => setMat mt it.1 it.2.1 it.2.2) mt).length = n
    ∧ ∀ r ∈ items.foldl (fun mt it => setMat mt it.1 it.2.1 it.2.2) mt, r.length = n := by
  induction items with
  | nil => intro mt h1 h2; exact ⟨h1, h2⟩
  | cons it items ih =>
    intro mt h1 h2
    rw [List.foldl_cons]
    obtain ⟨h3, h4⟩ := setMat_shape mt it.1 it.2.1 it.2.2 n h1 h2
    exact ih _ h3 h4

theorem matEntry_foldl (n : ℕ) (items : List (ℕ × ℕ × ℤ))
    (hgood : ∀ it ∈ items, it.1 < n ∧ it.2.1 < n)
    (hnd : (items.map (fun it => (it.1, it.2.1))).Nodup) :
    ∀ mt, mt.length = n → (∀ r ∈ mt, r.length = n) → ∀ u v, u < n → v < n →
    matEntry (items.foldl (fun mt it => setMat mt it.1 it.2.1 it.2.2) mt) u v
      = (match items.find? (fun it => decide (it.1 = u ∧ it.2.1 = v)) with
         | some it => it.2.2
         | none => matEntry mt u v) := by
  induction items with
  | nil =>
    intro mt h1 h2 u v hu hv
    rfl
  | cons it items ih =>
    intro mt h1 h2 u v hu hv
    rw [List.foldl_cons]
    obtain ⟨h3, h4⟩ := setMat_shape mt it.1 it.2.1 it.2.2 n h1 h2
    have hndc : ((it.1, it.2.1) :: items.map (fun it => (it.1, it.2.1))).Nodup := by
      rw [List.map_cons] at hnd
      exact hnd
    have hnd2 := (List.nodup_cons.mp hndc).2
    have hndhd := (List.nodup_cons.mp hndc).1
    have hgood2 : ∀ it2 ∈ items, it2.1 < n ∧ it2.2.1 < n :=
      fun it2 h => hgood it2 (List.mem_cons_of_mem it h)
    rw [ih hgood2 hnd2 _ h3 h4 u v hu hv]
    by_cases hp : it.1 = u ∧ it.2.1 = v
    · rw [List.find?_cons_of_pos _ (by simpa using hp)]
      have hnone : items.find? (fun it => decide (it.1 = u ∧ it.2.1 = v)) = none := by
        refine List.find?_eq_none.mpr ?_
        intro x hx hdec
        have hx2 : (x.1, x.2.1) = (u, v) := by
          have := of_decide_eq_true hdec
          exact Prod.ext this.1 this.2
        have hhd : (it.1, it.2.1) = (u, v) := Prod.ext hp.1 hp.2
        have hmem : (u, v) ∈ items.map (fun it => (it.1, it.2.1)) :=
          List.mem_map.mpr ⟨x, hx, hx2⟩
        rw [hhd] at hndhd
        exact hndhd hmem
      rw [hnone]
      rw [matEntry_setMat mt it.1 it.2.1 it.2.2 u v n h1 h2 hu hv
        (hgood it (List.mem_cons_self it items)).1 (hgood it (List.mem_cons_self it items)).2]
      rw [if_pos hp]
    · rw [List.find?_cons_of_neg _ (by simpa using hp)]
      cases hf : items.find? (fun it => decide (it.1 = u ∧ it.2.1 = v)) with
      | some it2 => rfl
      | none =>
        rw [matEntry_setMat mt it.1 it.2.1 it.2.2 u v n h1 h2 hu hv
          (hgood it (List.mem_cons_self it items)).1 (hgood it (List.mem_cons_self it items)).2]
        rw [if_neg hp]

theorem entryTarget_mk (wtd : Bool) (a : ℕ) (b : ℤ) :
    entryTarget (if wtd then Entry.pair a b else Entry.bare a) = a := by
  by_cases h : wtd <;> simp [h, entryTarget]

theorem snd_nodup_of_const_fst (l : List (ℕ × ℕ)) (u : ℕ) :
    l.Nodup → (∀ p ∈ l, p.1 = u) → (l.map Prod.snd).Nodup := by
  induction l with
  | nil => intro _ _; simp
  | cons p l ih =>
    intro hnd hc
    rw [List.map_cons, List.nodup_cons]
    refine ⟨?_, ih (List.nodup_cons.mp hnd).2 (fun q hq => hc q (List.mem_cons_of_mem p hq))⟩
    intro hmem
    obtain ⟨q, hq, hq2⟩ := List.mem_map.mp hmem
    have hq1 : q.1 = p.1 := by
      rw [hc q (List.mem_cons_of_mem p hq), hc p (List.mem_cons_self p l)]
    have : q = p := Prod.ext hq1 hq2
    exact (List.nodup_cons.mp hnd).1 (this ▸ hq)

/-- Properties of a generated graph presented in both representations. -/
structure GenProps (n : ℕ) (edges : List (ℕ × ℕ)) (out : GenOut) : Prop where
  keys : out.adjL.map Prod.fst = List.range n
  edge_count : (out.adjL.map (fun p => p.2.length)).sum = edges.length
  no_self : ∀ p ∈ out.adjL, ∀ e ∈ p.2, entryTarget e ≠ p.1
  row_nodup : ∀ p ∈ out.adjL, (p.2.map entryTarget).Nodup
  list_edge : ∀ u v, ListEdge out.adjL u v ↔ (u, v) ∈ edges
  mat_len : out.mat.length = n
  mat_rows : ∀ r ∈ out.mat, r.length = n
  mat_edge : ∀ u v, matEntry out.mat u v ≠ 0 ↔ (u, v) ∈ edges

theorem buildPair_graph (n : ℕ) (wtd : Bool) (items : List (ℕ × ℕ × ℤ))
    (edges : List (ℕ × ℕ))
    (hpairs : items.map (fun it => (it.1, it.2.1)) = edges)
    (hgood : ∀ e ∈ edges, e.1 < n ∧ e.2 < n ∧ e.1 ≠ e.2)
    (hnd : edges.Nodup)
    (hw : ∀ it ∈ items, it.2.2 ≠ 0) :
    GenProps n edges ⟨(buildPair n wtd items).1, (buildPair n wtd items).2⟩ := by
  have hgood2 : ∀ it ∈ items, it.1 < n ∧ it.2.1 < n ∧ it.1 ≠ it.2.1 := by
    intro it hit
    exact hgood (it.1, it.2.1) (hpairs ▸ List.mem_map.mpr ⟨it, hit, rfl⟩)
  have hndp : (items.map (fun it => (it.1, it.2.1))).Nodup := hpairs ▸ hnd
  have hsplit : buildPair n wtd items
      = (items.foldl (fun l it =>
           appendAt l it.1 (if wtd then Entry.pair it.2.1 it.2.2 else Entry.bare it.2.1))
           ((List.range n).map (fun i => (i, ([] : List Entry)))),
         items.foldl (fun mt it => setMat mt it.1 it.2.1 it.2.2)
           (List.replicate n (List.replicate n (0 : ℤ)))) := by
    unfold buildPair
    exact foldl_prod items
      (fun l it =>
        appendAt l it.1 (if wtd then Entry.pair it.2.1 it.2.2 else Entry.bare it.2.1))
      (fun mt it => setMat mt it.1 it.2.1 it.2.2) _ _
  have hadj : (buildPair n wtd items).1
      = (List.range n).map (fun u =>
          (u, (items.filter (fun it => decide (it.1 = u))).map
            (fun it => if wtd then Entry.pair it.2.1 it.2.2 else Entry.bare it.2.1))) := by
    rw [hsplit]
    have := appendAt_foldl n
      (fun it => if wtd then Entry.pair it.2.1 it.2.2 else Entry.bare it.2.1) items
      (fun _ => ([] : List Entry))
    rw [this]
    refine List.map_congr_left ?_
    intro u _
    rw [List.nil_append]
  have hshape := matFold_shape n items (List.replicate n (List.replicate n (0 : ℤ)))
    (by rw [List.length_replicate]) (by
      intro r hr
      rw [List.eq_of_mem_replicate hr, List.length_replicate])
  have hmat : ∀ u v, u < n → v < n →
      matEntry (buildPair n wtd items).2 u v
        = (match items.find? (fun it => decide (it.1 = u ∧ it.2.1 = v)) with
           | some it => it.2.2
           | none => 0) := by
    intro u v hu hv
    rw [hsplit]
    have := matEntry_foldl n items (fun it hit => ⟨(hgood2 it hit).1, (hgood2 it hit).2.1⟩)
      hndp (List.replicate n (List.replicate n (0 : ℤ)))
      (by rw [List.length_replicate]) (by
        intro r hr
        rw [List.eq_of_mem_replicate hr, List.length_replicate]) u v hu hv
    rw [this]
    cases items.find? (fun it => decide (it.1 = u ∧ it.2.1 = v)) with
    | some it => rfl
    | none => exact matEntry_replicate n u v
  have hmatlen : (buildPair n wtd items).2.length = n := by
    rw [hsplit]
    exact hshape.1
  have hmatrows : ∀ r ∈ (buildPair n wtd items).2, r.length = n := by
    rw [hsplit]
    exact hshape.2
  have hrowmap : ∀ u, ((items.filter (fun it => decide (it.1 = u))).map
      (fun it => if wtd then Entry.pair it.2.1 it.2.2 else Entry.bare it.2.1)).map entryTarget
      = (items.filter (fun it => decide (it.1 = u))).map (fun it => it.2.1) := by
    intro u
    rw [List.map_map]
    refine List.map_congr_left ?_
    intro it _
    exact entryTarget_mk wtd it.2.1 it.2.2
  refine ⟨?_, ?_, ?_, ?_, ?_, hmatlen, hmatrows, ?_⟩
  · rw [hadj, List.map_map]
    exact List.map_id' _
  · rw [hadj, List.map_map]
    have h1 : ((List.range n).map ((fun p => p.2.length) ∘ fun u =>
        (u, (items.filter (fun it => decide (it.1 = u))).map
          (fun it => if wtd then Entry.pair it.2.1 it.2.2 else Entry.bare it.2.1)))).sum
        = ((List.range n).map
            (fun u => ((items.filter (fun it => decide (it.1 = u))).map
              (fun it => (0 : ℕ))).length)).sum := by
      refine congrArg List.sum ?_
      refine List.map_congr_left ?_
      intro u _
      simp only [Function.comp_apply, List.length_map]
    rw [h1, sum_filter_lengths n items (fun it hit => (hgood2 it hit).1), ← hpairs,
      List.length_map]
  · rw [hadj]
    intro p hp e he
    obtain ⟨u, hu, rfl⟩ := List.mem_map.mp hp
    obtain ⟨it, hit, rfl⟩ := List.mem_map.mp he
    rw [entryTarget_mk]
    have h1 := List.mem_filter.mp hit
    have h2 : it.1 = u := by simpa using h1.2
    have := (hgood2 it (List.mem_of_mem_filter hit)).2.2
    simp only []
    rw [← h2]
    exact fun hc => this hc.symm
  · rw [hadj]
    intro p hp
    obtain ⟨u, hu, rfl⟩ := List.mem_map.mp hp
    simp only []
    rw [hrowmap u]
    have hsub : List.Sublist ((items.filter (fun it => decide (it.1 = u))).map
        (fun it => (it.1, it.2.1))) (items.map (fun it => (it.1, it.2.1))) :=
      List.Sublist.map _ (List.filter_sublist items)
    have hndf : ((items.filter (fun it => decide (it.1 = u))).map
        (fun it => (it.1, it.2.1))).Nodup := hndp.sublist hsub
    have hconst : ∀ q ∈ (items.filter (fun it => decide (it.1 = u))).map
        (fun it => (it.1, it.2.1)), q.1 = u := by
      intro q hq
      obtain ⟨it, hit, rfl⟩ := List.mem_map.mp hq
      simpa using (List.mem_filter.mp hit).2
    have := snd_nodup_of_const_fst _ u hndf hconst
    rw [List.map_map] at this
    exact this
  · intro u v
    rw [hadj]
    constructor
    · rintro ⟨p, hp, rfl, hv⟩
      obtain ⟨u2, hu2, rfl⟩ := List.mem_map.mp hp
      simp only [] at hv
      rw [hrowmap u2] at hv
      obtain ⟨it, hit, rfl⟩ := List.mem_map.mp hv
      have h2 : it.1 = u2 := by simpa using (List.mem_filter.mp hit).2
      rw [← h2]
      exact hpairs ▸ List.mem_map.mpr ⟨it, List.mem_of_mem_filter hit, rfl⟩
    · intro hmem
      have hun : u < n := (hgood (u, v) hmem).1
      obtain ⟨it, hit, hpe⟩ := List.mem_map.mp
        (show (u, v) ∈ items.map (fun it => (it.1, it.2.1)) from hpairs ▸ hmem)
      have h1 : it.1 = u := congrArg Prod.fst hpe
      have h2 : it.2.1 = v := congrArg Prod.snd hpe
      refine ⟨(u, (items.filter (fun it => decide (it.1 = u))).map
        (fun it => if wtd then Entry.pair it.2.1 it.2.2 else Entry.bare it.2.1)),
        List.mem_map.mpr ⟨u, List.mem_range.mpr hun, rfl⟩, rfl, ?_⟩
      simp only []
      rw [hrowmap u]
      refine List.mem_map.mpr ⟨it, ?_, h2⟩
      refine List.mem_filter.mpr ⟨hit, ?_⟩
      simpa using h1
  · intro u v
    show matEntry (buildPair n wtd items).2 u v ≠ 0 ↔ (u, v) ∈ edges
    by_cases hin : u < n ∧ v < n
    · rw [hmat u v hin.1 hin.2]
      cases hf : items.find? (fun it => decide (it.1 = u ∧ it.2.1 = v)) with
      | some it =>
        have hmem := List.mem_of_find?_eq_some hf
        have hpred := List.find?_some hf
        have hp2 : it.1 = u ∧ it.2.1 = v := of_decide_eq_true hpred
        constructor
        · intro _
          rw [← hp2.1, ← hp2.2]
          exact hpairs ▸ List.mem_map.mpr ⟨it, hmem, rfl⟩
        · intro _
          exact hw it hmem
      | none =>
        constructor
        · intro h0
          exact absurd rfl h0
        · intro hmem
          exfalso
          obtain ⟨it, hit, hpe⟩ := List.mem_map.mp
            (show (u, v) ∈ items.map (fun it => (it.1, it.2.1)) from hpairs ▸ hmem)
          have hnone := List.find?_eq_none.mp hf it hit
          have h1 : it.1 = u := congrArg Prod.fst hpe
          have h2 : it.2.1 = v := congrArg Prod.snd hpe
          exact hnone (by simp [h1, h2])
    · have h0 : matEntry (buildPair n wtd items).2 u v = 0 :=
        matEntry_oob _ n hmatlen hmatrows u v hin
      rw [h0]
      constructor
      · intro hc
        exact absurd rfl hc
      · intro hmem
        exact absurd hin (fun hc => hc ⟨(hgood (u, v) hmem).1, (hgood (u, v) hmem).2.1⟩)

/-! ### Converter characterizations -/

theorem exc_bind_ok {α β : Type} (a : α) (f : α → Except Unit β) :
    (Except.ok a >>= f) = f a := rfl

theorem exc_bind_error {α β : Type} (f : α → Except Unit β) :
    ((Except.error () : Except Unit α) >>= f) = Except.error () := rfl

theorem foldlM_cond {α β : Type} (step : α → β → Except Unit α) (P : β → Bool)
    (g : α → β → α)
    (hF : ∀ acc p, step acc p = if P p then .ok (g acc p) else .error ()) :
    ∀ (l : List β) (acc : α),
      l.foldlM step acc = if l.all P then .ok (l.foldl g acc) else .error () := by
  intro l
  induction l with
  | nil => intro acc; rfl
  | cons x l ih =>
    intro acc
    rw [List.foldlM_cons, hF acc x]
    by_cases h : P x = true
    · rw [if_pos h, exc_bind_ok, ih, List.foldl_cons]
      by_cases h2 : l.all P = true
      · rw [if_pos h2, if_pos (by simp [List.all_cons, h, h2])]
      · rw [if_neg h2, if_neg (by simp [List.all_cons, h2])]
    · rw [if_neg h, exc_bind_error, if_neg (by simp [List.all_cons, h])]

theorem foldl_append_if {β : Type} (p : β → Prop) [DecidablePred p] :
    ∀ (l acc : List β),
      l.foldl (fun acc v => if p v then acc ++ [v] else acc) acc
        = acc ++ l.filter (fun v => decide (p v)) := by
  intro l
  induction l with
  | nil => intro acc; simp
  | cons x l ih =>
    intro acc
    rw [List.foldl_cons]
    by_cases h : p x
    · rw [if_pos h, ih, List.filter_cons_of_pos (by simpa using h)]
      simp [List.append_assoc]
    · rw [if_neg h, ih, List.filter_cons_of_neg (by simpa using h)]

theorem foldl_append_map {β γ : Type} (h : β → γ) :
    ∀ (l : List β) (acc : List γ),
      l.foldl (fun acc u => acc ++ [h u]) acc = acc ++ l.map h := by
  intro l
  induction l with
  | nil => intro acc; simp
  | cons x l ih =>
    intro acc
    rw [List.foldl_cons, ih, List.map_cons]
    simp [List.append_assoc]

theorem scanRow_eq (r : List ℤ) (n : ℕ) :
    scanRow r n
      = if n ≤ r.length then
          .ok ((List.range n).filter (fun v => decide (r.getD v 0 ≠ 0)))
        else .error () := by
  unfold scanRow
  have heq := foldlM_cond
    (fun (acc : List ℕ) (v : ℕ) =>
      match r[v]? with
      | none => (.error () : Except Unit (List ℕ))
      | some x => .ok (if x ≠ 0 then acc ++ [v] else acc))
    (fun v => decide (v < r.length))
    (fun acc v => if r.getD v 0 ≠ 0 then acc ++ [v] else acc)
    ?_ (List.range n) []
  · rw [heq]
    by_cases h : n ≤ r.length
    · rw [if_pos (by
        rw [List.all_eq_true]
        intro v hv
        exact decide_eq_true (lt_of_lt_of_le (List.mem_range.mp hv) h)), if_pos h]
      rw [foldl_append_if (fun v => r.getD v 0 ≠ 0) (List.range n) []]
      rw [List.nil_append]
    · rw [if_neg (by
        intro hall
        rw [List.all_eq_true] at hall
        refine h ?_
        by_contra h2
        have := of_decide_eq_true (hall (r.length) (List.mem_range.mpr (by omega)))
        omega), if_neg h]
  · intro acc v
    simp only []
    cases hrv : r[v]? with
    | none =>
      have hv : r.length ≤ v := List.getElem?_eq_none_iff.mp hrv
      rw [if_neg (by simp; omega)]
    | some x =>
      have hv : v < r.length := by
        by_contra h2
        rw [List.getElem?_eq_none (by omega)] at hrv
        cases hrv
      have hx : r.getD v 0 = x := by
        rw [List.getD_eq_getElem?_getD, hrv]
        rfl
      rw [if_pos (decide_eq_true hv), hx]

theorem matrix_to_list_eq (mat : List (List ℤ)) :
    matrix_to_list mat
      = if ∀ r ∈ mat, mat.length ≤ r.length then
          .ok ((List.range mat.length).map
            (fun u => (u, (List.range mat.length).filter
              (fun v => decide (matEntry mat u v ≠ 0)))))
        else .error () := by
  unfold matrix_to_list
  have heq := foldlM_cond
    (fun (acc : List (ℕ × List ℕ)) (u : ℕ) =>
      match scanRow (mat.getD u []) mat.length with
      | .error e => (.error e : Except Unit (List (ℕ × List ℕ)))
      | .ok row => .ok (acc ++ [(u, row)]))
    (fun u => decide (mat.length ≤ (mat.getD u []).length))
    (fun acc u => acc ++ [(u, (List.range mat.length).filter
      (fun v => decide (matEntry mat u v ≠ 0)))])
    ?_ (List.range mat.length) []
  · rw [heq]
    have hcond : (List.range mat.length).all
        (fun u => decide (mat.length ≤ (mat.getD u []).length)) = true
        ↔ ∀ r ∈ mat, mat.length ≤ r.length := by
      rw [List.all_eq_true]
      constructor
      · intro hall r hr
        obtain ⟨u, hu, hur⟩ := List.getElem_of_mem hr
        have := of_decide_eq_true (hall u (List.mem_range.mpr hu))
        rw [List.getD_eq_getElem mat [] hu, hur] at this
        exact this
      · intro hall u hu
        refine decide_eq_true ?_
        have hu2 := List.mem_range.mp hu
        rw [List.getD_eq_getElem mat [] hu2]
        exact hall _ (List.getElem_mem hu2)
    by_cases h : ∀ r ∈ mat, mat.length ≤ r.length
    · rw [if_pos (hcond.mpr h), if_pos h]
      have hfold := foldl_append_map
        (fun u => (u, (List.range mat.length).filter
          (fun v => decide (matEntry mat u v ≠ 0))))
        (List.range mat.length) []
      rw [List.nil_append] at hfold
      exact congrArg Except.ok hfold
    · rw [if_neg (fun hc => h (hcond.mp hc)), if_neg h]
  · intro acc u
    simp only []
    rw [scanRow_eq]
    by_cases h : mat.length ≤ (mat.getD u []).length
    · rw [if_pos h, if_pos (decide_eq_true h)]
      rfl
    · rw [if_neg h, if_neg (by simpa using h)]

/-- Validity of one entry of a weighted row written by `list_to_matrix`
(`graph.py` lines 68-69): it must be a pair and both indices in range. -/
def entPairOK (n u : ℕ) : Entry → Bool
  | .pair v _ => decide (u < n ∧ v < n)
  | .bare _ => false

/-- Validity of one entry of an unweighted row written by `list_to_matrix`
(`graph.py` lines 71-72): a bare target with both indices in range. -/
def entBareOK (n u : ℕ) : Entry → Bool
  | .bare v => decide (u < n ∧ v < n)
  | .pair _ _ => false

/-- A row of the adjacency list is processed by `list_to_matrix` without
an exception: empty, or homogeneous in the branch picked by its first
entry with all indices in range. -/
def rowOK (n u : ℕ) : List Entry → Bool
  | [] => true
  | es@(.pair _ _ :: _) => es.all (entPairOK n u)
  | es@(.bare _ :: _) => es.all (entBareOK n u)

/-- Matrix effect of one entry in the weighted branch. -/
def entPairApp (u : ℕ) (acc : List (List ℤ)) : Entry → List (List ℤ)
  | .pair v w => setMat acc u v w
  | .bare _ => acc

/-- Matrix effect of one entry in the unweighted branch. -/
def entBareApp (u : ℕ) (acc : List (List ℤ)) : Entry → List (List ℤ)
  | .bare v => setMat acc u v 1
  | .pair _ _ => acc

/-- Matrix effect of one full row of `list_to_matrix`. -/
def rowApply (mt : List (List ℤ)) (u : ℕ) : List Entry → List (List ℤ)
  | [] => mt
  | es@(.pair _ _ :: _) => es.foldl (entPairApp u) mt
  | es@(.bare _ :: _) => es.foldl (entBareApp u) mt

theorem rowWrite_eq (n : ℕ) (mt : List (List ℤ)) (u : ℕ) (es : List Entry) :
    rowWrite n mt u es
      = if rowOK n u es = true then .ok (rowApply mt u es) else .error () := by
  cases es with
  | nil => simp [rowWrite, rowOK, rowApply]
  | cons e t =>
    cases e with
    | pair a b =>
      have heq := foldlM_cond
        (fun acc e => match e with
          | Entry.pair v w =>
            if u < n ∧ v < n then (.ok (setMat acc u v w) : Except Unit _)
            else .error ()
          | Entry.bare _ => .error ())
        (entPairOK n u) (entPairApp u) ?_ (Entry.pair a b :: t) mt
      · exact heq
      · intro acc e
        cases e with
        | pair v w => by_cases h : u < n ∧ v < n <;> simp [entPairOK, entPairApp, h]
        | bare v => simp [entPairOK]
    | bare a =>
      have heq := foldlM_cond
        (fun acc e => match e with
          | Entry.bare v =>
            if u < n ∧ v < n then (.ok (setMat acc u v 1) : Except Unit _)
            else .error ()
          | Entry.pair _ _ => .error ())
        (entBareOK n u) (entBareApp u) ?_ (Entry.bare a :: t) mt
      · exact heq
      · intro acc e
        cases e with
        | bare v => by_cases h : u < n ∧ v < n <;> simp [entBareOK, entBareApp, h]
        | pair v w => simp [entBareOK]

theorem list_to_matrix_eq (adjL : List (ℕ × List Entry)) (n : ℕ) :
    list_to_matrix adjL n
      = if adjL.all (fun p => rowOK n p.1 p.2) = true then
          .ok (adjL.foldl (fun mt p => rowApply mt p.1 p.2)
            (List.replicate n (List.replicate n (0 : ℤ))))
        else .error () := by
  exact foldlM_cond (fun acc p => rowWrite n acc p.1 p.2)
    (fun p => rowOK n p.1 p.2) (fun mt p => rowApply mt p.1 p.2)
    (fun acc p => rowWrite_eq n acc p.1 p.2) adjL
    (List.replicate n (List.replicate n 0))

/-! ### Generator postconditions -/

theorem randint_pos (lo hi : ℤ) (x : ℕ) (h1 : 1 ≤ lo) (h2 : lo ≤ hi) :
    randint lo hi x ≠ 0 := by
  unfold randint
  have hmod := Int.emod_nonneg (x : ℤ) (show hi - lo + 1 ≠ 0 by omega)
  omega

theorem weightItems_pairs (lo hi : ℤ) (g : ℕ → ℕ) (edges : List (ℕ × ℕ)) (i : ℕ) :
    (weightItems lo hi g i edges).map (fun it => (it.1, it.2.1)) = edges := by
  unfold weightItems
  rw [List.map_map]
  have hfun : ((fun (it : ℕ × ℕ × ℤ) => (it.1, it.2.1)) ∘
      (fun (p : ℕ × (ℕ × ℕ)) => (p.2.1, p.2.2, randint lo hi (g p.1))))
      = Prod.snd := by
    funext p
    simp
  rw [hfun, List.enumFrom_map_snd]

theorem bareItems_pairs (edges : List (ℕ × ℕ)) :
    (edges.map (fun e => (e.1, e.2, (1 : ℤ)))).map (fun it => (it.1, it.2.1)) = edges := by
  rw [List.map_map]
  have hfun : ((fun (it : ℕ × ℕ × ℤ) => (it.1, it.2.1)) ∘
      (fun (e : ℕ × ℕ) => (e.1, e.2, (1 : ℤ)))) = id := by
    funext e
    simp
  rw [hfun, List.map_id]

theorem erdos_eq_error (n : ℕ) (d : ℚ) (w : Bool) (wr : ℤ × ℤ) (g : ℕ → ℕ)
    (fuel : ℕ) (hd : ¬ densityOk d) :
    erdos_renyi_directed n d w wr g fuel = .error () := by
  unfold erdos_renyi_directed
  rw [if_neg hd]

theorem erdos_eq_none (n : ℕ) (d : ℚ) (w : Bool) (wr : ℤ × ℤ) (g : ℕ → ℕ)
    (fuel : ℕ) (hd : densityOk d)
    (hs : sample g n (mTarget n d) fuel [] 0 = none) :
    erdos_renyi_directed n d w wr g fuel = .ok none := by
  unfold erdos_renyi_directed
  rw [if_pos hd, hs]

theorem erdos_eq_some (n : ℕ) (d : ℚ) (w : Bool) (wr : ℤ × ℤ) (g : ℕ → ℕ)
    (fuel : ℕ) (edges : List (ℕ × ℕ)) (i : ℕ) (hd : densityOk d)
    (hs : sample g n (mTarget n d) fuel [] 0 = some (edges, i)) :
    erdos_renyi_directed n d w wr g fuel
      = if w = true then
          (if edges ≠ [] ∧ wr.2 < wr.1 then .error ()
           else .ok (some ⟨(buildPair n true (weightItems wr.1 wr.2 g i edges)).1,
             (buildPair n true (weightItems wr.1 wr.2 g i edges)).2⟩))
        else .ok (some ⟨(buildPair n false (edges.map (fun e => (e.1, e.2, (1 : ℤ))))).1,
          (buildPair n false (edges.map (fun e => (e.1, e.2, (1 : ℤ))))).2⟩) := by
  unfold erdos_renyi_directed
  rw [if_pos hd, hs]

theorem erdos_graph (n : ℕ) (d : ℚ) (w : Bool) (wr : ℤ × ℤ) (g : ℕ → ℕ) (fuel : ℕ)
    (hwr : 1 ≤ wr.1) (out : GenOut)
    (hok : erdos_renyi_directed n d w wr g fuel = .ok (some out)) :
    ∃ edges : List (ℕ × ℕ), edges.length = mTarget n d ∧ edges.Nodup ∧
      (∀ e ∈ edges, e.1 < n ∧ e.2 < n ∧ e.1 ≠ e.2) ∧ GenProps n edges out := by
  by_cases hd : densityOk d
  swap
  · rw [erdos_eq_error n d w wr g fuel hd] at hok
    simp at hok
  cases hs : sample g n (mTarget n d) fuel [] 0 with
  | none =>
    rw [erdos_eq_none n d w wr g fuel hd hs] at hok
    simp at hok
  | some p =>
    obtain ⟨edges, i⟩ := p
    obtain ⟨hlen, hnd, hgood⟩ := sample_post g n (mTarget n d)
      (fun hm => mTarget_pos_imp n d hm) fuel [] 0 edges i (Nat.zero_le _)
      List.nodup_nil (by intro e he; cases he) hs
    refine ⟨edges, hlen, hnd, hgood, ?_⟩
    rw [erdos_eq_some n d w wr g fuel edges i hd hs] at hok
    cases w with
    | false =>
      rw [if_neg Bool.false_ne_true] at hok
      have hout := Option.some.inj (Except.ok.inj hok)
      rw [← hout]
      exact buildPair_graph n false _ edges (bareItems_pairs edges) hgood hnd
        (by intro it hit
            obtain ⟨e, he, rfl⟩ := List.mem_map.mp hit
            exact one_ne_zero)
    | true =>
      rw [if_pos rfl] at hok
      by_cases hc : edges ≠ [] ∧ wr.2 < wr.1
      · rw [if_pos hc] at hok
        simp at hok
      · rw [if_neg hc] at hok
        have hout := Option.some.inj (Except.ok.inj hok)
        rw [← hout]
        refine buildPair_graph n true _ edges (weightItems_pairs wr.1 wr.2 g edges i)
          hgood hnd ?_
        intro it hit
        unfold weightItems at hit
        obtain ⟨p, hp, rfl⟩ := List.mem_map.mp hit
        by_cases hce : edges = []
        · subst hce
          simp [List.enumFrom] at hp
        · push_neg at hc
          have hle : wr.1 ≤ wr.2 := by
            have h2 := hc hce
            omega
          exact randint_pos wr.1 wr.2 (g p.1) hwr hle

theorem pyRound_eq (a : ℤ) (b : ℕ) (hb : 0 < b) :
    pyRound a b = pyRoundQ ((a : ℚ) / (b : ℚ)) := by
  have hbQ : (0 : ℚ) < (b : ℚ) := by exact_mod_cast hb
  have hbz : (0 : ℤ) ≤ (b : ℤ) := by exact_mod_cast Nat.zero_le b
  have hfl : ⌊(a : ℚ) / (b : ℚ)⌋ = a.fdiv b := by
    rw [Rat.floor_intCast_div_natCast, Int.fdiv_eq_ediv a hbz]
  have hfrac : (a : ℚ) / (b : ℚ) - (⌊(a : ℚ) / (b : ℚ)⌋ : ℚ)
      = ((a - a.fdiv b * b : ℤ) : ℚ) / (b : ℚ) := by
    rw [hfl]
    push_cast
    field_simp
    ring
  have hcast1 : ((a - a.fdiv b * b : ℤ) : ℚ) * 2
      = ((2 * (a - a.fdiv b * b) : ℤ) : ℚ) := by
    push_cast
    ring
  have hcast2 : (1 : ℚ) * (b : ℚ) = (((b : ℕ) : ℤ) : ℚ) := by
    push_cast
    ring
  have h1 : ((a : ℚ) / (b : ℚ) - (⌊(a : ℚ) / (b : ℚ)⌋ : ℚ) < 1/2)
      ↔ (2 * (a - a.fdiv b * b) < ((b : ℕ) : ℤ)) := by
    rw [hfrac, div_lt_div_iff hbQ two_pos, hcast1, hcast2]
    exact Int.cast_lt
  have h2 : (1/2 < (a : ℚ) / (b : ℚ) - (⌊(a : ℚ) / (b : ℚ)⌋ : ℚ))
      ↔ (((b : ℕ) : ℤ) < 2 * (a - a.fdiv b * b)) := by
    rw [hfrac, div_lt_div_iff two_pos hbQ, hcast2, hcast1]
    exact Int.cast_lt
  have hlhs : pyRound a b
      = if 2 * (a - a.fdiv b * b) < ((b : ℕ) : ℤ) then a.fdiv b
        else if ((b : ℕ) : ℤ) < 2 * (a - a.fdiv b * b) then a.fdiv b + 1
        else if a.fdiv b % 2 = 0 then a.fdiv b else a.fdiv b + 1 := rfl
  have hrhs : pyRoundQ ((a : ℚ) / (b : ℚ))
      = if (a : ℚ) / (b : ℚ) - (⌊(a : ℚ) / (b : ℚ)⌋ : ℚ) < 1/2 then ⌊(a : ℚ) / (b : ℚ)⌋
        else if 1/2 < (a : ℚ) / (b : ℚ) - (⌊(a : ℚ) / (b : ℚ)⌋ : ℚ) then ⌊(a : ℚ) / (b : ℚ)⌋ + 1
        else if ⌊(a : ℚ) / (b : ℚ)⌋ % 2 = 0 then ⌊(a : ℚ) / (b : ℚ)⌋
        else ⌊(a : ℚ) / (b : ℚ)⌋ + 1 := rfl
  rw [hfl] at h1 h2
  rw [hlhs, hrhs, hfl]
  by_cases hc1 : 2 * (a - a.fdiv b * b) < ((b : ℕ) : ℤ)
  · rw [if_pos hc1, if_pos (h1.mpr hc1)]
  · rw [if_neg hc1, if_neg (fun hq => hc1 (h1.mp hq))]
    by_cases hc2 : ((b : ℕ) : ℤ) < 2 * (a - a.fdiv b * b)
    · rw [if_pos hc2, if_pos (h2.mpr hc2)]
    · rw [if_neg hc2, if_neg (fun hq => hc2 (h2.mp hq))]

theorem densityDen_pos (d : ℚ) : 0 < densityDen d := by
  unfold densityDen
  have h0 : 0 < d.den := Nat.pos_of_ne_zero d.den_nz
  by_cases h : 1 < d
  · rw [if_pos h]
    omega
  · rw [if_neg h]
    exact h0

theorem normDensity_eq (d : ℚ) :
    normDensity d = (d.num : ℚ) / ((densityDen d : ℕ) : ℚ) := by
  unfold normDensity densityDen
  by_cases h : 1 < d
  · rw [if_pos h, if_pos h]
    conv_lhs => rw [← Rat.num_div_den d]
    rw [div_div]
    push_cast
    ring_nf
  · rw [if_neg h, if_neg h]
    exact (Rat.num_div_den d).symm

theorem densityOk_iff (d : ℚ) :
    densityOk d ↔ (0 ≤ normDensity d ∧ normDensity d ≤ 1) := by
  unfold densityOk
  rw [normDensity_eq]
  have hden : (0 : ℚ) < ((densityDen d : ℕ) : ℚ) := by
    exact_mod_cast densityDen_pos d
  constructor
  · rintro ⟨h1, h2⟩
    refine ⟨div_nonneg (by exact_mod_cast h1) (le_of_lt hden), ?_⟩
    rw [div_le_one hden]
    exact_mod_cast h2
  · rintro ⟨h1, h2⟩
    constructor
    · by_contra hneg
      push_neg at hneg
      have hq : ((d.num : ℚ)) < 0 := by exact_mod_cast hneg
      have := div_neg_of_neg_of_pos hq hden
      linarith
    · rw [div_le_one hden] at h2
      exact_mod_cast h2

theorem mTarget_eq (n : ℕ) (d : ℚ) : mTarget n d = mTargetQ n d := by
  unfold mTarget mTargetQ
  congr 1
  rw [pyRound_eq _ _ (densityDen_pos d)]
  congr 1
  rw [normDensity_eq]
  push_cast
  ring

/-- The neighbour lists produced by `matrix_to_list` are plain ints; fed
back into `list_to_matrix` they arrive as bare (unweighted) entries. -/
def bareify (l : List (ℕ × List ℕ)) : List (ℕ × List Entry) :=
  l.map (fun p => (p.1, p.2.map Entry.bare))

theorem rowOK_bare (n u : ℕ) (vs : List ℕ) (hu : u < n) (hv : ∀ v ∈ vs, v < n) :
    rowOK n u (vs.map Entry.bare) = true := by
  cases vs with
  | nil => rfl
  | cons v t =>
    show (Entry.bare v :: t.map Entry.bare).all (entBareOK n u) = true
    rw [List.all_eq_true]
    intro e he
    rw [← List.map_cons] at he
    obtain ⟨w, hw, rfl⟩ := List.mem_map.mp he
    exact decide_eq_true ⟨hu, hv w hw⟩

theorem rowApply_bare (mt : List (List ℤ)) (u : ℕ) (vs : List ℕ) :
    rowApply mt u (vs.map Entry.bare)
      = vs.foldl (fun acc v => setMat acc u v 1) mt := by
  cases vs with
  | nil => rfl
  | cons v t =>
    show (Entry.bare v :: t.map Entry.bare).foldl (entBareApp u) mt = _
    rw [← List.map_cons, List.foldl_map]
    have hfun : (fun (acc : List (List ℤ)) (x : ℕ) => entBareApp u acc (Entry.bare x))
        = (fun acc v => setMat acc u v 1) := by
      funext acc x
      rfl
    rw [hfun]

theorem foldl_bare_rows (f : ℕ → List ℕ) :
    ∀ (us : List ℕ) (mt : List (List ℤ)),
      us.foldl (fun mt u => rowApply mt u ((f u).map Entry.bare)) mt
        = (us.flatMap (fun u => (f u).map (fun v => (u, v, (1 : ℤ))))).foldl
            (fun m it => setMat m it.1 it.2.1 it.2.2) mt := by
  intro us
  induction us with
  | nil => intro mt; rfl
  | cons u us ih =>
    intro mt
    rw [List.foldl_cons, ih, List.flatMap_cons, List.foldl_append]
    refine congrArg
      (fun z => ((us.flatMap (fun u => (f u).map (fun v => (u, v, (1 : ℤ))))).foldl
        (fun m it => setMat m it.1 it.2.1 it.2.2) z)) ?_
    rw [rowApply_bare, List.foldl_map]

theorem mat_ext (n : ℕ) (A B : List (List ℤ)) (hA : A.length = n) (hB : B.length = n)
    (hAr : ∀ r ∈ A, r.length = n) (hBr : ∀ r ∈ B, r.length = n)
    (h : ∀ u v, matEntry A u v = matEntry B u v) : A = B := by
  apply List.ext_getElem (by omega)
  intro u hu1 hu2
  apply List.ext_getElem
  · rw [hAr _ (List.getElem_mem hu1), hBr _ (List.getElem_mem hu2)]
  intro v hv1 hv2
  have hv := h u v
  unfold matEntry at hv
  rw [List.getD_eq_getElem A [] hu1, List.getD_eq_getElem B [] hu2,
    List.getD_eq_getElem _ 0 hv1, List.getD_eq_getElem _ 0 hv2] at hv
  exact hv

/-- The items written back into a matrix when the output of
`matrix_to_list` is fed to `list_to_matrix` (all weights 1). -/
def rtItems (M : List (List ℤ)) (n : ℕ) : List (ℕ × ℕ × ℤ) :=
  (List.range n).flatMap
    (fun u => ((List.range n).filter (fun v => decide (matEntry M u v ≠ 0))).map
      (fun v => (u, v, (1 : ℤ))))

theorem rtItems_good (M : List (List ℤ)) (n : ℕ) :
    ∀ it ∈ rtItems M n, it.1 < n ∧ it.2.1 < n ∧ it.2.2 = 1
      ∧ matEntry M it.1 it.2.1 ≠ 0 := by
  intro it hit
  obtain ⟨u, hu, hmem⟩ := List.mem_flatMap.mp hit
  obtain ⟨v, hv, rfl⟩ := List.mem_map.mp hmem
  refine ⟨List.mem_range.mp hu, List.mem_range.mp (List.mem_filter.mp hv).1, rfl, ?_⟩
  exact of_decide_eq_true (List.mem_filter.mp hv).2

theorem rtItems_proj (M : List (List ℤ)) (n : ℕ) :
    (rtItems M n).map (fun it => (it.1, it.2.1))
      = (List.range n).flatMap
          (fun u => ((List.range n).filter (fun v => decide (matEntry M u v ≠ 0))).map
            (fun v => (u, v))) := by
  unfold rtItems
  rw [List.map_flatMap]
  refine congrArg (List.flatMap (List.range n)) (funext fun u => ?_)
  rw [List.map_map]
  exact List.map_congr_left (fun v _ => rfl)

theorem rtItems_proj_nodup (M : List (List ℤ)) (n : ℕ) :
    ((rtItems M n).map (fun it => (it.1, it.2.1))).Nodup := by
  rw [rtItems_proj]
  rw [List.nodup_flatMap]
  constructor
  · intro u _
    refine List.Nodup.map ?_ (List.Nodup.filter _ (List.nodup_range n))
    intro a b hab
    exact (Prod.mk.injEq u a u b ▸ hab).2
  · refine List.Pairwise.imp ?_ (List.pairwise_lt_range n)
    intro a b hab
    show List.Disjoint _ _
    rw [List.disjoint_left]
    intro p hpa hpb
    obtain ⟨v1, _, rfl⟩ := List.mem_map.mp hpa
    obtain ⟨v2, _, hp2⟩ := List.mem_map.mp hpb
    have : b = a := (Prod.mk.injEq b v2 a v1 ▸ hp2).1
    omega

theorem rtItems_mem (M : List (List ℤ)) (n : ℕ) (u v : ℕ) :
    ((u, v) ∈ (rtItems M n).map (fun it => (it.1, it.2.1)))
      ↔ (u < n ∧ v < n ∧ matEntry M u v ≠ 0) := by
  rw [rtItems_proj]
  constructor
  · intro h
    obtain ⟨u2, hu2, hmem⟩ := List.mem_flatMap.mp h
    obtain ⟨v2, hv2, hp⟩ := List.mem_map.mp hmem
    obtain ⟨rfl, rfl⟩ : u2 = u ∧ v2 = v :=
      ⟨(Prod.mk.injEq u2 v2 u v ▸ hp).1, (Prod.mk.injEq u2 v2 u v ▸ hp).2⟩
    exact ⟨List.mem_range.mp hu2, List.mem_range.mp (List.mem_filter.mp hv2).1,
      of_decide_eq_true (List.mem_filter.mp hv2).2⟩
  · rintro ⟨hu, hv, hnz⟩
    refine List.mem_flatMap.mpr ⟨u, List.mem_range.mpr hu, ?_⟩
    refine List.mem_map.mpr ⟨v, ?_, rfl⟩
    exact List.mem_filter.mpr ⟨List.mem_range.mpr hv, decide_eq_true hnz⟩

theorem matrix_to_list_square (n : ℕ) (M : List (List ℤ)) (hlen : M.length = n)
    (hrows : ∀ r ∈ M, r.length = n) :
    matrix_to_list M
      = .ok ((List.range n).map (fun u =>
          (u, (List.range n).filter (fun v => decide (matEntry M u v ≠ 0))))) := by
  have hml := matrix_to_list_eq M
  rw [if_pos (by intro r hr; rw [hrows r hr, hlen])] at hml
  rw [hlen] at hml
  exact hml

theorem list_to_matrix_rt (n : ℕ) (M : List (List ℤ)) :
    list_to_matrix (bareify ((List.range n).map (fun u =>
        (u, (List.range n).filter (fun v => decide (matEntry M u v ≠ 0)))))) n
      = .ok ((rtItems M n).foldl (fun m it => setMat m it.1 it.2.1 it.2.2)
          (List.replicate n (List.replicate n (0 : ℤ)))) := by
  have hbar : bareify ((List.range n).map (fun u =>
      (u, (List.range n).filter (fun v => decide (matEntry M u v ≠ 0)))))
      = (List.range n).map (fun u =>
          (u, ((List.range n).filter
            (fun v => decide (matEntry M u v ≠ 0))).map Entry.bare)) := by
    unfold bareify
    rw [List.map_map]
    exact List.map_congr_left (fun u _ => rfl)
  rw [hbar, list_to_matrix_eq]
  have hcond : ((List.range n).map (fun u =>
      (u, ((List.range n).filter
        (fun v => decide (matEntry M u v ≠ 0))).map Entry.bare))).all
      (fun p => rowOK n p.1 p.2) = true := by
    rw [List.all_eq_true]
    intro p hp
    obtain ⟨u, hu, rfl⟩ := List.mem_map.mp hp
    exact rowOK_bare n u _ (List.mem_range.mp hu)
      (fun v hv => List.mem_range.mp (List.mem_filter.mp hv).1)
  rw [if_pos hcond]
  refine congrArg Except.ok ?_
  rw [List.foldl_map]
  exact foldl_bare_rows
    (fun u => (List.range n).filter (fun v => decide (matEntry M u v ≠ 0)))
    (List.range n) (List.replicate n (List.replicate n (0 : ℤ)))

theorem rtMat_entry (n : ℕ) (M : List (List ℤ)) (hlen : M.length = n)
    (hrows : ∀ r ∈ M, r.length = n) (u v : ℕ) :
    matEntry ((rtItems M n).foldl (fun m it => setMat m it.1 it.2.1 it.2.2)
        (List.replicate n (List.replicate n (0 : ℤ)))) u v
      = if matEntry M u v ≠ 0 then 1 else 0 := by
  have hshape := matFold_shape n (rtItems M n)
    (List.replicate n (List.replicate n (0 : ℤ)))
    (by rw [List.length_replicate])
    (by intro r hr; rw [List.eq_of_mem_replicate hr, List.length_replicate])
  by_cases hin : u < n ∧ v < n
  · have hent := matEntry_foldl n (rtItems M n)
      (fun it hit => ⟨(rtItems_good M n it hit).1, (rtItems_good M n it hit).2.1⟩)
      (rtItems_proj_nodup M n)
      (List.replicate n (List.replicate n (0 : ℤ)))
      (by rw [List.length_replicate])
      (by intro r hr; rw [List.eq_of_mem_replicate hr, List.length_replicate])
      u v hin.1 hin.2
    rw [hent]
    cases hf : (rtItems M n).find? (fun it => decide (it.1 = u ∧ it.2.1 = v)) with
    | some it =>
      have hmem := List.mem_of_find?_eq_some hf
      have hpred0 := List.find?_some hf
      have hpred := of_decide_eq_true hpred0
      have hg := rtItems_good M n it hmem
      have hnz : matEntry M u v ≠ 0 := by
        rw [← hpred.1, ← hpred.2]
        exact hg.2.2.2
      rw [if_pos hnz]
      exact hg.2.2.1
    | none =>
      have hz : ¬ matEntry M u v ≠ 0 := by
        intro hnz
        obtain ⟨it, hit, hp⟩ :=
          List.mem_map.mp ((rtItems_mem M n u v).mpr ⟨hin.1, hin.2, hnz⟩)
        refine List.find?_eq_none.mp hf it hit (decide_eq_true ?_)
        exact ⟨(Prod.mk.injEq it.1 it.2.1 u v ▸ hp).1,
          (Prod.mk.injEq it.1 it.2.1 u v ▸ hp).2⟩
      rw [if_neg hz]
      exact matEntry_replicate n u v
  · have h1 := matEntry_oob _ n hshape.1 hshape.2 u v hin
    have h2 := matEntry_oob M n hlen hrows u v hin
    rw [h1, h2, if_neg (by simp)]

/-- C3: for every vertex count, every density accepted by the generator,
every weighting flag, every weight range with positive minimum and every
stream, a successful run of `erdos_renyi_directed` returns a graph whose
adjacency-list keys are exactly `0..n-1`, with exactly
`round(normalised density * n * (n-1))` edges (`mTargetQ`), hence 0 edges
whenever `n ≤ 1`; it has no self-loops and no duplicate directed pairs,
and the adjacency list and the n-by-n adjacency matrix encode the
identical edge set. -/
theorem C3_generator_spec (n : ℕ) (d : ℚ) (w : Bool) (wr : ℤ × ℤ) (g : ℕ → ℕ)
    (fuel : ℕ) (out : GenOut) (hwr : 1 ≤ wr.1)
    (hok : erdos_renyi_directed n d w wr g fuel = .ok (some out)) :
    out.adjL.map Prod.fst = List.range n
    ∧ (out.adjL.map (fun p => p.2.length)).sum = mTargetQ n d
    ∧ (n ≤ 1 → (out.adjL.map (fun p => p.2.length)).sum = 0)
    ∧ (∀ p ∈ out.adjL, ∀ e ∈ p.2, entryTarget e ≠ p.1)
    ∧ (∀ p ∈ out.adjL, (p.2.map entryTarget).Nodup)
    ∧ (∀ u v, ListEdge out.adjL u v ↔ matEntry out.mat u v ≠ 0)
    ∧ out.mat.length = n ∧ (∀ r ∈ out.mat, r.length = n) := by
  obtain ⟨edges, hlen, hnd, hgood, hprops⟩ := erdos_graph n d w wr g fuel hwr out hok
  obtain ⟨hkeys, hcount, hself, hrow, hledge, hmlen, hmrows, hmedge⟩ := hprops
  refine ⟨hkeys, ?_, ?_, hself, hrow, ?_, hmlen, hmrows⟩
  · rw [hcount, hlen, mTarget_eq]
  · intro hn1
    rw [hcount, hlen, mTarget_zero_of_le_one n d hn1]
  · intro u v
    rw [hledge u v, hmedge u v]

/-- Witness for C3: a concrete unweighted run with n = 3, density 1/3. -/
theorem C3_generator_spec_witness :
    (1 : ℤ) ≤ ((1 : ℤ), (10 : ℤ)).1
    ∧ ((GenOut.mk [(0, [Entry.bare 1]), (1, []), (2, [Entry.bare 0])]
          [[0, 1, 0], [0, 0, 0], [1, 0, 0]]).adjL.map Prod.fst = List.range 3)
    ∧ (((GenOut.mk [(0, [Entry.bare 1]), (1, []), (2, [Entry.bare 0])]
          [[0, 1, 0], [0, 0, 0], [1, 0, 0]]).adjL.map (fun p => p.2.length)).sum
        = mTargetQ 3 (mkRat 1 3)) := by
  have h := C3_generator_spec 3 (mkRat 1 3) false (1, 10) (fun i => i) 12
    (GenOut.mk [(0, [Entry.bare 1]), (1, []), (2, [Entry.bare 0])]
      [[0, 1, 0], [0, 0, 0], [1, 0, 0]]) (by decide) (by decide)
  exact ⟨by decide, h.1, h.2.1⟩

/-- C4 counterexample: for a weighted generated graph with weight 5 on its
single edge, converting the adjacency matrix to a list and back yields the
0/1 matrix, not the original: the converters are not mutual inverses on
generated weighted graphs (weights are not preserved). -/
theorem C4_counterexample :
    erdos_renyi_directed 2 (mkRat 1 2) true (5, 5) (fun i => i) 4
      = .ok (some (GenOut.mk [(0, [Entry.pair 1 5]), (1, [])] [[0, 5], [0, 0]]))
    ∧ matrix_to_list ([[0, 5], [0, 0]] : List (List ℤ)) = .ok [(0, [1]), (1, [])]
    ∧ list_to_matrix (bareify [(0, [1]), (1, [])]) 2 = .ok [[0, 1], [0, 0]]
    ∧ ([[0, 1], [0, 0]] : List (List ℤ)) ≠ [[0, 5], [0, 0]] := by decide

/-- C4 (amended): on every square n-by-n matrix the converter roundtrip
succeeds and `listToMatrix (matrixToList M)` is the 0/1 support matrix of
`M`: the edge set is preserved exactly, and the roundtrip reproduces `M`
itself precisely when `M` has only 0/1 entries (so weighted matrices are
not recovered, unweighted ones are). -/
theorem C4_roundtrip (n : ℕ) (M : List (List ℤ)) (hlen : M.length = n)
    (hrows : ∀ r ∈ M, r.length = n) :
    ∃ lst M2, matrix_to_list M = .ok lst
      ∧ list_to_matrix (bareify lst) n = .ok M2
      ∧ (∀ u v, matEntry M2 u v = if matEntry M u v ≠ 0 then 1 else 0)
      ∧ (∀ u v, matEntry M2 u v ≠ 0 ↔ matEntry M u v ≠ 0)
      ∧ (M2 = M ↔ ∀ u v, matEntry M u v = 0 ∨ matEntry M u v = 1) := by
  refine ⟨_, _, matrix_to_list_square n M hlen hrows, list_to_matrix_rt n M,
    rtMat_entry n M hlen hrows, ?_, ?_⟩
  · intro u v
    rw [rtMat_entry n M hlen hrows u v]
    by_cases hz : matEntry M u v ≠ 0
    · rw [if_pos hz]
      exact ⟨fun _ => hz, fun _ => one_ne_zero⟩
    · rw [if_neg hz]
      exact ⟨fun h0 => absurd rfl h0, fun h => absurd h hz⟩
  · constructor
    · intro hM2 u v
      have hval := rtMat_entry n M hlen hrows u v
      rw [hM2] at hval
      by_cases hz : matEntry M u v ≠ 0
      · rw [if_pos hz] at hval
        right
        exact hval
      · left
        exact not_not.mp hz
    · intro hbin
      have hshape := matFold_shape n (rtItems M n)
        (List.replicate n (List.replicate n (0 : ℤ)))
        (by rw [List.length_replicate])
        (by intro r hr; rw [List.eq_of_mem_replicate hr, List.length_replicate])
      refine mat_ext n _ M hshape.1 hlen hshape.2 hrows ?_
      intro u v
      rw [rtMat_entry n M hlen hrows u v]
      rcases hbin u v with h0 | h1
      · rw [h0, if_neg (by simp)]
      · rw [h1, if_pos (by norm_num)]

/-- Witness for C4 (amended) on the concrete square matrix [[0,0],[7,0]]. -/
theorem C4_roundtrip_witness :
    ∃ lst M2, matrix_to_list ([[0, 0], [7, 0]] : List (List ℤ)) = .ok lst
      ∧ list_to_matrix (bareify lst) 2 = .ok M2
      ∧ (∀ u v, matEntry M2 u v
          = if matEntry ([[0, 0], [7, 0]] : List (List ℤ)) u v ≠ 0 then 1 else 0)
      ∧ (∀ u v, matEntry M2 u v ≠ 0
          ↔ matEntry ([[0, 0], [7, 0]] : List (List ℤ)) u v ≠ 0)
      ∧ (M2 = [[0, 0], [7, 0]]
          ↔ ∀ u v, matEntry ([[0, 0], [7, 0]] : List (List ℤ)) u v = 0
              ∨ matEntry ([[0, 0], [7, 0]] : List (List ℤ)) u v = 1) :=
  C4_roundtrip 2 [[0, 0], [7, 0]] (by decide) (by decide)

/-- C5 counterexample: an unweighted call with weight range (10, 1), i.e.
min > max, raises nothing and returns a complete result, refuting the
claim that min > max always yields InvalidParameter before any work. -/
theorem C5_counterexample :
    erdos_renyi_directed 2 (mkRat 1 2) false (10, 1) (fun i => i) 10
      = .ok (some (GenOut.mk [(0, [Entry.bare 1]), (1, [])] [[0, 1], [0, 0]]))
    ∧ (1 : ℤ) < 10 := by decide

/-- C5 (amended): `erdos_renyi_directed` raises ValueError exactly when
the normalised density lies outside [0, 1] (checked up front, before
sampling), or when the call is weighted, the weight range has min > max,
and the sampling phase has already completed with at least one edge (so
the weight-range error is neither checked up front nor raised at all for
unweighted calls or empty edge sets). -/
theorem C5_error_characterization (n : ℕ) (d : ℚ) (w : Bool) (wr : ℤ × ℤ)
    (g : ℕ → ℕ) (fuel : ℕ) :
    erdos_renyi_directed n d w wr g fuel = .error ()
      ↔ (¬ (0 ≤ normDensity d ∧ normDensity d ≤ 1)
         ∨ (w = true ∧ wr.2 < wr.1 ∧ ∃ edges i,
              sample g n (mTarget n d) fuel [] 0 = some (edges, i)
                ∧ edges ≠ [])) := by
  rw [← densityOk_iff d]
  by_cases hd : densityOk d
  · cases hs : sample g n (mTarget n d) fuel [] 0 with
    | none =>
      rw [erdos_eq_none n d w wr g fuel hd hs]
      constructor
      · intro h
        exact absurd h (by simp)
      · rintro (h | ⟨hw2, hlt, edges, i, hsi, hne⟩)
        · exact absurd hd h
        · exact Option.noConfusion hsi
    | some p =>
      obtain ⟨edges, i⟩ := p
      rw [erdos_eq_some n d w wr g fuel edges i hd hs]
      cases w with
      | false =>
        rw [if_neg Bool.false_ne_true]
        constructor
        · intro h
          exact absurd h (by simp)
        · rintro (h | ⟨hw2, _⟩)
          · exact absurd hd h
          · exact Bool.noConfusion hw2
      | true =>
        rw [if_pos rfl]
        by_cases hc : edges ≠ [] ∧ wr.2 < wr.1
        · rw [if_pos hc]
          exact ⟨fun _ => Or.inr ⟨rfl, hc.2, edges, i, rfl, hc.1⟩, fun _ => rfl⟩
        · rw [if_neg hc]
          constructor
          · intro h
            exact absurd h (by simp)
          · rintro (h | ⟨_, hlt, edges2, i2, hsi, hne⟩)
            · exact absurd hd h
            · have heq := Option.some.inj hsi
              have h1 : edges = edges2 := congrArg Prod.fst heq
              exact absurd ⟨h1 ▸ hne, hlt⟩ hc
  · rw [erdos_eq_error n d w wr g fuel hd]
    exact ⟨fun _ => Or.inl hd, fun _ => rfl⟩

/-- C7 counterexample: `matrix_to_list` accepts the non-square matrix
[[0,1]] (a row longer than the row count raises nothing), and
`list_to_matrix` fails on an adjacency list all of whose edge targets are
in range, because the source key 5 is out of range: both directions of
the claimed failure-mode equivalence are refuted. -/
theorem C7_counterexample :
    matrix_to_list ([[0, 1]] : List (List ℤ)) = .ok [(0, [])]
    ∧ ¬ (∀ r ∈ ([[0, 1]] : List (List ℤ)), r.length = 1)
    ∧ list_to_matrix [(5, [Entry.bare 0])] 2 = .error ()
    ∧ (∀ p ∈ [((5 : ℕ), [Entry.bare 0])], ∀ e ∈ p.2, entryTarget e < 2) := by
  refine ⟨by decide, ?_, by decide, by decide⟩
  intro h
  have := h [0, 1] (by decide)
  simp at this

/-- C7 (amended): the exact failure conditions of the converters:
`list_to_matrix adjL n` raises an exception iff some row violates
`rowOK` (a nonempty row whose source key is out of range, a target index
out of range, or an entry form mixing bare targets and pairs within one
row), and `matrix_to_list mat` raises an exception iff some row is
strictly shorter than the number of rows (longer rows are accepted). -/
theorem C7_error_characterization (adjL : List (ℕ × List Entry))
    (mat : List (List ℤ)) (n : ℕ) :
    ((list_to_matrix adjL n = .error ())
        ↔ ¬ ∀ p ∈ adjL, rowOK n p.1 p.2 = true)
    ∧ ((matrix_to_list mat = .error ()) ↔ ∃ r ∈ mat, r.length < mat.length) := by
  constructor
  · rw [list_to_matrix_eq]
    by_cases h : adjL.all (fun p => rowOK n p.1 p.2) = true
    · rw [if_pos h]
      constructor
      · intro hc
        exact absurd hc (by simp)
      · intro hc
        rw [List.all_eq_true] at h
        exact absurd (fun p hp => h p hp) hc
    · rw [if_neg h]
      constructor
      · intro _ hall
        exact h (List.all_eq_true.mpr hall)
      · intro _
        rfl
  · rw [matrix_to_list_eq]
    by_cases h : ∀ r ∈ mat, mat.length ≤ r.length
    · rw [if_pos h]
      constructor
      · intro hc
        exact absurd hc (by simp)
      · rintro ⟨r, hr, hlt⟩
        exact absurd (h r hr) (by omega)
    · rw [if_neg h]
      push_neg at h
      obtain ⟨r, hr, hlt⟩ := h
      exact ⟨fun _ => ⟨r, hr, by omega⟩, fun _ => rfl⟩

/-- C8: generation is deterministic under seeding: with a supplied seed
the ambient stream is irrelevant (two seeded runs agree and equal the
canonical run on the seeded stream), and a concrete seeded run at n = 5,
density 1/5 reproduces a fixed graph with round(0.2 * 5 * 4) = 4 edges. -/
theorem C8_seed_determinism (n : ℕ) (d : ℚ) (w : Bool) (wr : ℤ × ℤ) (s : ℕ)
    (g1 g2 : ℕ → ℕ) (fuel : ℕ) :
    erdosSeeded n d w wr (some s) g1 fuel = erdosSeeded n d w wr (some s) g2 fuel
    ∧ erdosSeeded n d w wr (some s) g1 fuel
        = erdos_renyi_directed n d w wr (mtStream s) fuel
    ∧ erdosSeeded 5 (mkRat 1 5) false (1, 10) (some 0) g1 64
        = .ok (some (GenOut.mk [(0, []), (1, [Entry.bare 4]), (2, [Entry.bare 0]),
            (3, [Entry.bare 1]), (4, [Entry.bare 2])]
          [[0, 0, 0, 0, 0], [0, 0, 0, 0, 1], [1, 0, 0, 0, 0],
           [0, 1, 0, 0, 0], [0, 0, 1, 0, 0]]))
    ∧ mTargetQ 5 (mkRat 1 5) = 4 := by
  refine ⟨rfl, rfl, ?_, ?_⟩
  · show erdos_renyi_directed 5 (mkRat 1 5) false (1, 10) (mtStream 0) 64 = _
    decide
  · rw [← mTarget_eq]
    decide

/-- C9: on every square n-by-n matrix, `matrix_to_list` succeeds with
keys exactly `0..n-1`; vertex `u`'s list contains exactly those `v` with
`M[u][v] ≠ 0`, in strictly ascending order of `v` (vertices without
outgoing edges get an empty list). -/
theorem C9_matrix_to_list_spec (n : ℕ) (M : List (List ℤ)) (hlen : M.length = n)
    (hrows : ∀ r ∈ M, r.length = n) :
    ∃ lst, matrix_to_list M = .ok lst
      ∧ lst.map Prod.fst = List.range n
      ∧ (∀ p ∈ lst, ∀ v, v ∈ p.2 ↔ (v < n ∧ matEntry M p.1 v ≠ 0))
      ∧ (∀ p ∈ lst, List.Pairwise (fun a b => a < b) p.2) := by
  refine ⟨_, matrix_to_list_square n M hlen hrows, ?_, ?_, ?_⟩
  · rw [List.map_map]
    have hcomp : (Prod.fst ∘ (fun u => (u, (List.range n).filter
        (fun v => decide (matEntry M u v ≠ 0))))) = (id : ℕ → ℕ) :=
      funext fun u => rfl
    rw [hcomp, List.map_id]
  · intro p hp v
    obtain ⟨u, hu, rfl⟩ := List.mem_map.mp hp
    constructor
    · intro hv
      have hm := List.mem_filter.mp hv
      exact ⟨List.mem_range.mp hm.1, of_decide_eq_true hm.2⟩
    · rintro ⟨hvn, hnz⟩
      exact List.mem_filter.mpr ⟨List.mem_range.mpr hvn, decide_eq_true hnz⟩
  · intro p hp
    obtain ⟨u, hu, rfl⟩ := List.mem_map.mp hp
    exact (List.pairwise_lt_range n).sublist (List.filter_sublist _)

/-- Witness for C9 on the concrete square matrix [[0,0],[3,0]]. -/
theorem C9_matrix_to_list_spec_witness :
    ∃ lst, matrix_to_list ([[0, 0], [3, 0]] : List (List ℤ)) = .ok lst
      ∧ lst.map Prod.fst = List.range 2
      ∧ (∀ p ∈ lst, ∀ v, v ∈ p.2
          ↔ (v < 2 ∧ matEntry ([[0, 0], [3, 0]] : List (List ℤ)) p.1 v ≠ 0))
      ∧ (∀ p ∈ lst, List.Pairwise (fun a b => a < b) p.2) :=
  C9_matrix_to_list_spec 2 [[0, 0], [3, 0]] (by decide) (by decide)

/-! ### Faithfulness of the `kahn_matrix` row-length guard -/

/-- Column scan of the indegree phase of `kahn_matrix` (`kan.py` lines
50-55): for fixed `v`, read `mat[u][v]` for each `u` in `0..n-1`
(IndexError when row `u` is shorter) and count the nonzero entries. -/
def colScan (mat : List (List ℤ)) (v : ℕ) : Except Unit ℕ :=
  (List.range mat.length).foldlM
    (fun s u =>
      match (mat.getD u [])[v]? with
      | none => .error ()
      | some x => .ok (if x ≠ 0 then s + 1 else s))
    0

/-- `kahn_matrix` with the indegree phase performed as the literal
element-by-element scan of the Python loop, propagating the IndexError
from the exact access that raises it. -/
def kahn_matrix_scan (mat : List (List ℤ)) : Except Unit (Option (List ℕ)) :=
  match (List.range mat.length).foldlM
      (fun acc v =>
        match colScan mat v with
        | .error e => (.error e : Except Unit (List (ℕ × ℤ)))
        | .ok s => .ok (acc ++ [(v, (s : ℤ))]))
      ([] : List (ℕ × ℤ)) with
  | .error e => .error e
  | .ok ind0 => .ok (kahnRunG (List.range mat.length) (succM mat) ind0)

theorem foldl_count {β : Type} (p : β → Prop) [DecidablePred p] :
    ∀ (l : List β) (s : ℕ),
      l.foldl (fun s u => if p u then s + 1 else s) s
        = s + (l.filter (fun u => decide (p u))).length := by
  intro l
  induction l with
  | nil => intro s; simp
  | cons x l ih =>
    intro s
    rw [List.foldl_cons]
    by_cases h : p x
    · rw [if_pos h, ih, List.filter_cons_of_pos (by simpa using h)]
      simp
      omega
    · rw [if_neg h, ih, List.filter_cons_of_neg (by simpa using h)]

theorem colScan_eq (mat : List (List ℤ)) (v : ℕ) :
    colScan mat v
      = if (List.range mat.length).all
            (fun u => decide (v < (mat.getD u []).length)) = true
        then .ok (colIndeg mat v) else .error () := by
  unfold colScan
  have heq := foldlM_cond
    (fun (s : ℕ) (u : ℕ) =>
      match (mat.getD u [])[v]? with
      | none => (.error () : Except Unit ℕ)
      | some x => .ok (if x ≠ 0 then s + 1 else s))
    (fun u => decide (v < (mat.getD u []).length))
    (fun s u => if matEntry mat u v ≠ 0 then s + 1 else s)
    ?_ (List.range mat.length) 0
  · rw [heq]
    by_cases h : (List.range mat.length).all
        (fun u => decide (v < (mat.getD u []).length)) = true
    · rw [if_pos h, if_pos h]
      refine congrArg Except.ok ?_
      rw [foldl_count (fun u => matEntry mat u v ≠ 0) (List.range mat.length) 0]
      rw [Nat.zero_add]
      rfl
    · rw [if_neg h, if_neg h]
  · intro s u
    simp only []
    cases hrv : (mat.getD u [])[v]? with
    | none =>
      have hv : (mat.getD u []).length ≤ v := List.getElem?_eq_none_iff.mp hrv
      rw [if_neg (by
        simp only [decide_eq_true_eq, not_lt]
        exact hv)]
    | some x =>
      have hv : v < (mat.getD u []).length := by
        by_contra h2
        rw [List.getElem?_eq_none (by omega)] at hrv
        cases hrv
      have hx : matEntry mat u v = x := by
        unfold matEntry
        rw [List.getD_eq_getElem?_getD, hrv]
        rfl
      rw [if_pos (decide_eq_true hv), hx]

theorem kahn_matrix_scan_eq (mat : List (List ℤ)) :
    kahn_matrix_scan mat = kahn_matrix mat := by
  unfold kahn_matrix_scan kahn_matrix
  have heq := foldlM_cond
    (fun (acc : List (ℕ × ℤ)) (v : ℕ) =>
      match colScan mat v with
      | .error e => (.error e : Except Unit (List (ℕ × ℤ)))
      | .ok s => .ok (acc ++ [(v, (s : ℤ))]))
    (fun v => (List.range mat.length).all
      (fun u => decide (v < (mat.getD u []).length)))
    (fun acc v => acc ++ [(v, (colIndeg mat v : ℤ))])
    ?_ (List.range mat.length) []
  · rw [heq]
    by_cases h : ∀ r ∈ mat, mat.length ≤ r.length
    · have hL : (List.range mat.length).all (fun v => (List.range mat.length).all
          (fun u => decide (v < (mat.getD u []).length))) = true := by
        rw [List.all_eq_true]
        intro v hv
        rw [List.all_eq_true]
        intro u hu
        refine decide_eq_true ?_
        rw [List.getD_eq_getElem mat [] (List.mem_range.mp hu)]
        have h2 := h _ (List.getElem_mem (List.mem_range.mp hu))
        have hvn := List.mem_range.mp hv
        omega
      have hR : mat.all (fun r => decide (mat.length ≤ r.length)) = true := by
        rw [List.all_eq_true]
        intro r hr
        exact decide_eq_true (h r hr)
      rw [if_pos hL, if_pos hR]
      have hfold := foldl_append_map (fun v => (v, (colIndeg mat v : ℤ)))
        (List.range mat.length) []
      rw [List.nil_append] at hfold
      rw [hfold]
    · have hL : ¬ ((List.range mat.length).all (fun v => (List.range mat.length).all
          (fun u => decide (v < (mat.getD u []).length))) = true) := by
        intro hall
        refine h ?_
        intro r hr
        obtain ⟨u, hu, hur⟩ := List.getElem_of_mem hr
        rw [List.all_eq_true] at hall
        by_cases hn : mat.length = 0
        · omega
        · have hv := hall (mat.length - 1) (List.mem_range.mpr (by omega))
          rw [List.all_eq_true] at hv
          have h3 := of_decide_eq_true (hv u (List.mem_range.mpr hu))
          rw [List.getD_eq_getElem mat [] hu, hur] at h3
          omega
      have hR : ¬ (mat.all (fun r => decide (mat.length ≤ r.length)) = true) := by
        intro hall
        rw [List.all_eq_true] at hall
        exact h (fun r hr => of_decide_eq_true (hall r hr))
      rw [if_neg hL, if_neg hR]
  · intro acc v
    simp only []
    rw [colScan_eq]
    by_cases h : (List.range mat.length).all
        (fun u => decide (v < (mat.getD u []).length)) = true
    · rw [if_pos h, if_pos h]
    · rw [if_neg h, if_neg h]
